import Mathlib

/-
Verification of the beautifulsoup repository excerpt.

The visible source is adapter glue: src/beautifulsoup/builder/lxml_builder.py
forwards tokenizer events (start / end / data / comment / doctype) to a tree
builder that lives outside the excerpt, and src/bs4/css.py wraps the external
soupsieve CSS engine.  The tree-construction core (NodeStore, InsertionStack,
TagPolicy, TreeBuilder, DocumentHandle) is therefore modelled here from the
specification, while the CSS proxy is embedded directly from src/bs4/css.py.
-/

namespace BSpec

/-- Modelled from the spec: the Node tagged variant of the missing NodeStore
component (Element with tag, attributes and ordered children; Text; Comment;
Doctype with name, public identifier and system identifier). -/
inductive NodeKind where
  | element (tag : String) (attrs : List (String × String))
  | text (data : String)
  | comment (data : String)
  | doctype (name pubid sysid : String)
deriving DecidableEq

/-- Modelled from the spec: one arena slot of the missing NodeStore.  Cross
references (the ordered child sequence) are indices into the arena, never
owning pointers. -/
structure StoredNode where
  kind : NodeKind
  children : List Nat
deriving DecidableEq

/-- Modelled from the spec: the missing NodeStore arena.  The document root is
implicit; rootChildren lists the indices of its ordered children. -/
structure NodeStore where
  nodes : List StoredNode
  rootChildren : List Nat
deriving DecidableEq

def emptyStore : NodeStore := ⟨[], []⟩

/-- Total lookup into a list by position, none when out of range. -/
def getAt {α : Type} : List α → Nat → Option α
  | [], _ => none
  | x :: _, 0 => some x
  | _ :: xs, n + 1 => getAt xs n

/-- Pointwise update of a list at a position; out-of-range updates are no-ops. -/
def modifyAt {α : Type} (f : α → α) : List α → Nat → List α
  | [], _ => []
  | x :: xs, 0 => f x :: xs
  | x :: xs, n + 1 => x :: modifyAt f xs n

/-- Modelled from the spec: NodeStore node creation.  A fresh node is appended
to the arena and its index is appended to the ordered child list of the given
parent (the implicit document root when the parent is none).  Nodes are only
ever appended, never relinked. -/
def NodeStore.addChild (s : NodeStore) (parent : Option Nat) (k : NodeKind) : NodeStore :=
  let idx := s.nodes.length
  let node : StoredNode := ⟨k, []⟩
  match parent with
  | none => ⟨s.nodes ++ [node], s.rootChildren ++ [idx]⟩
  | some p =>
      ⟨modifyAt (fun n => ⟨n.kind, n.children ++ [idx]⟩) (s.nodes ++ [node]) p,
       s.rootChildren⟩

def NodeStore.kindOf (s : NodeStore) (i : Nat) : Option NodeKind :=
  (getAt s.nodes i).map (·.kind)

def NodeStore.childrenOf (s : NodeStore) (i : Nat) : List Nat :=
  ((getAt s.nodes i).map (·.children)).getD []

/-- Tag name of an element node, none for non-elements and invalid indices. -/
def NodeStore.tagOf (s : NodeStore) (i : Nat) : Option String :=
  match s.kindOf i with
  | some (.element t _) => some t
  | _ => none

/-- Modelled from the spec: in-place replacement of the character data of an
existing node (used only to coalesce adjacent text runs). -/
def NodeStore.setKind (s : NodeStore) (i : Nat) (k : NodeKind) : NodeStore :=
  ⟨modifyAt (fun n => ⟨k, n.children⟩) s.nodes i, s.rootChildren⟩

/-- Modelled from the spec: the missing TagPolicy static knowledge table.
Per tag name it reports voidness, raw-text content, and which open tags the
tag implicitly closes.  Pure lookup, no state. -/
structure TagPolicy where
  isVoid : String → Bool
  isRawText : String → Bool
  closes : String → String → Bool

/-- Modelled from the spec: the missing TreeBuilder state, a NodeStore plus
the InsertionStack of currently open element indices, innermost first. -/
structure Builder where
  store : NodeStore
  stack : List Nat
deriving DecidableEq

def initBuilder : Builder := ⟨emptyStore, []⟩

def topOf : List Nat → Option Nat
  | [] => none
  | x :: _ => some x

/-- Ordered child list of the insertion point: the document root's children
when the stack is empty. -/
def childListOf (s : NodeStore) (parent : Option Nat) : List Nat :=
  match parent with
  | none => s.rootChildren
  | some p => s.childrenOf p

def lastElem? : List Nat → Option Nat
  | [] => none
  | [x] => some x
  | _ :: y :: rest => lastElem? (y :: rest)

/-- Modelled from the spec: repeated implicit closing on a start tag; while
the current open element is implicitly closed by the incoming tag, pop it. -/
def popImplied (pol : TagPolicy) (s : NodeStore) (name : String) : List Nat → List Nat
  | [] => []
  | top :: rest =>
      match s.tagOf top with
      | some t => if pol.closes name t then popImplied pol s name rest else top :: rest
      | none => top :: rest

def stackHasTag (s : NodeStore) (name : String) : List Nat → Bool
  | [] => false
  | i :: rest => (s.tagOf i == some name) || stackHasTag s name rest

def popThroughTag (s : NodeStore) (name : String) : List Nat → List Nat
  | [] => []
  | top :: rest => if s.tagOf top == some name then rest else popThroughTag s name rest

/-- Modelled from the spec: the InsertionStack closeThrough operation — pop
elements until and including the nearest open element with the given tag
name, or fail silently (no-op) when no such element is open. -/
def closeThrough (s : NodeStore) (name : String) (stack : List Nat) : List Nat :=
  if stackHasTag s name stack then popThroughTag s name stack else stack

/-- Modelled from the spec: start-tag transition of the missing TreeBuilder.
Implicitly close per TagPolicy, create an Element node, append it under the
current insertion point, and push it unless the tag is void. -/
def Builder.handleStart (pol : TagPolicy) (b : Builder) (name : String)
    (attrs : List (String × String)) : Builder :=
  let stack := popImplied pol b.store name b.stack
  let idx := b.store.nodes.length
  let store := b.store.addChild (topOf stack) (.element name attrs)
  ⟨store, if pol.isVoid name then stack else idx :: stack⟩

/-- Modelled from the spec: end-tag transition — closeThrough on the
InsertionStack; an unmatched end tag is recovered as a silent no-op. -/
def Builder.handleEnd (b : Builder) (name : String) : Builder :=
  ⟨b.store, closeThrough b.store name b.stack⟩

/-- Modelled from the spec: text transition — append a Text child of the
current insertion point, merging into the previous child when that child is
also Text so that adjacent text runs stay coalesced. -/
def Builder.handleText (b : Builder) (data : String) : Builder :=
  let parent := topOf b.stack
  match lastElem? (childListOf b.store parent) with
  | some ci =>
      match b.store.kindOf ci with
      | some (.text old) => ⟨b.store.setKind ci (.text (old ++ data)), b.stack⟩
      | _ => ⟨b.store.addChild parent (.text data), b.stack⟩
  | none => ⟨b.store.addChild parent (.text data), b.stack⟩

/-- Modelled from the spec: comment transition — append a Comment child of
the current insertion point; comments never affect the open-element stack. -/
def Builder.handleComment (b : Builder) (data : String) : Builder :=
  ⟨b.store.addChild (topOf b.stack) (.comment data), b.stack⟩

/-- Modelled from the spec: doctype transition — append a Doctype node as a
child of the document root; out-of-position doctypes are still appended
rather than rejected. -/
def Builder.handleDoctype (b : Builder) (name pubid sysid : String) : Builder :=
  ⟨b.store.addChild none (.doctype name pubid sysid), b.stack⟩

/-- Modelled from the spec: the parse-event alphabet the builder consumes. -/
inductive Event where
  | startTag (name : String) (attrs : List (String × String))
  | endTag (name : String)
  | text (data : String)
  | comment (data : String)
  | doctype (name pubid sysid : String)
deriving DecidableEq

/-- Modelled from the spec: one TreeBuilder state transition per event kind. -/
def step (pol : TagPolicy) (b : Builder) : Event → Builder
  | .startTag n a => b.handleStart pol n a
  | .endTag n => b.handleEnd n
  | .text d => b.handleText d
  | .comment d => b.handleComment d
  | .doctype n p sy => b.handleDoctype n p sy

/-- Modelled from the spec: feed a finite event sequence to a fresh builder. -/
def run (pol : TagPolicy) (es : List Event) : Builder :=
  es.foldl (step pol) initBuilder

/-- Modelled from the spec: end-of-stream — still-open elements are
implicitly closed without error; the tree itself is untouched. -/
def finish (b : Builder) : Builder := ⟨b.store, []⟩

/-- Number of occurrences of a value in a list of indices. -/
def countOcc : List Nat → Nat → Nat
  | [], _ => 0
  | x :: xs, i => (if x = i then 1 else 0) + countOcc xs i

def flatAll : List (List Nat) → List Nat
  | [] => []
  | l :: ls => l ++ flatAll ls

/-- Every child reference stored anywhere in the arena, in document order:
the root's children followed by each node's children. -/
def NodeStore.childRefs (s : NodeStore) : List Nat :=
  s.rootChildren ++ flatAll (s.nodes.map (·.children))

/-- Every parent-to-child arena edge goes strictly upward in index, so the
child relation has no cycles. -/
def edgesIncrease (s : NodeStore) : Prop :=
  ∀ p : Nat, ∀ c ∈ s.childrenOf p, p < c

/-- Every allocated node is referenced as a child exactly once (its unique
parent being the implicit document root when it occurs in rootChildren), and
nothing references an unallocated node. -/
def oneParent (s : NodeStore) : Prop :=
  ∀ i : Nat, countOcc s.childRefs i = if i < s.nodes.length then 1 else 0

/-- The strict ancestor relation induced by the arena's child lists. -/
def childEdge (s : NodeStore) (p c : Nat) : Prop := c ∈ s.childrenOf p

def isTextKind : NodeKind → Bool
  | .text _ => true
  | _ => false

def isTextNode (s : NodeStore) (i : Nat) : Bool :=
  match s.kindOf i with
  | some (.text _) => true
  | _ => false

/-- No two adjacent positions of the list are both Text nodes. -/
def noAdjTextList (s : NodeStore) : List Nat → Prop
  | [] => True
  | [_] => True
  | a :: b :: rest => ¬(isTextNode s a = true ∧ isTextNode s b = true) ∧
      noAdjTextList s (b :: rest)

/-- Adjacent Text siblings occur nowhere in the tree: not among the root's
children and not among any node's children. -/
def storeNoAdjTexts (s : NodeStore) : Prop :=
  noAdjTextList s s.rootChildren ∧ ∀ p : Nat, noAdjTextList s (s.childrenOf p)

/-- Whether the last child of the given insertion point is a Text node. -/
def lastChildText (s : NodeStore) (parent : Option Nat) : Bool :=
  match lastElem? (childListOf s parent) with
  | some ci => isTextNode s ci
  | none => false

mutual
/-- Modelled from the spec: a well-nested document fragment — an element with
its ordered content, a text run, or a comment. -/
inductive ETree where
  | elem (tag : String) (attrs : List (String × String)) (children : EForest)
  | txt (data : String)
  | com (data : String)
/-- Modelled from the spec: an ordered sequence of well-nested fragments. -/
inductive EForest where
  | nil
  | cons (t : ETree) (f : EForest)
end

mutual
/-- The balanced event sequence a fragment denotes: a start tag, the events
of the content, and the matching end tag. -/
def eventsOfTree : ETree → List Event
  | .elem n a c => Event.startTag n a :: (eventsOfForest c ++ [Event.endTag n])
  | .txt d => [Event.text d]
  | .com d => [Event.comment d]
def eventsOfForest : EForest → List Event
  | .nil => []
  | .cons t f => eventsOfTree t ++ eventsOfForest f
end

mutual
/-- Arena image of one fragment appended below the given insertion point. -/
def appendTree (s : NodeStore) (parent : Option Nat) : ETree → NodeStore
  | .elem n a c => appendForest (s.addChild parent (.element n a)) (some s.nodes.length) c
  | .txt d => s.addChild parent (.text d)
  | .com d => s.addChild parent (.comment d)
/-- Arena image of a fragment sequence appended below the insertion point. -/
def appendForest (s : NodeStore) (parent : Option Nat) : EForest → NodeStore
  | .nil => s
  | .cons t f => appendForest (appendTree s parent t) parent f
end

mutual
def sizeT : ETree → Nat
  | .elem _ _ c => 1 + sizeF c
  | .txt _ => 1
  | .com _ => 1
def sizeF : EForest → Nat
  | .nil => 0
  | .cons t f => sizeT t + sizeF f
end

mutual
def depthT : ETree → Nat
  | .elem _ _ c => depthF c + 1
  | .txt _ => 1
  | .com _ => 1
def depthF : EForest → Nat
  | .nil => 0
  | .cons t f => max (depthT t) (depthF f)
end

/-- Arena indices at which the roots of the forest land when appended to a
store that already holds n nodes. -/
def rootIdxs (n : Nat) : EForest → List Nat
  | .nil => []
  | .cons t f => n :: rootIdxs (n + sizeT t) f

def isTxtTree : ETree → Bool
  | .txt _ => true
  | _ => false

def headIsTxt : EForest → Bool
  | .cons t _ => isTxtTree t
  | .nil => false

/-- Whether opening this fragment's root tag would implicitly close an
enclosing element with the given tag name. -/
def rootCloseOk (pol : TagPolicy) (pname : Option String) : ETree → Bool
  | .elem n _ _ =>
      match pname with
      | some p => !pol.closes n p
      | none => true
  | _ => true

mutual
/-- Well-formedness of a fragment: no void tags are used as elements, and the
content sequence is well formed below the element's tag name. -/
def goodTree (pol : TagPolicy) : ETree → Bool
  | .elem n _ c => !pol.isVoid n && goodForest pol (some n) c
  | .txt _ => true
  | .com _ => true
/-- Well-formedness of a fragment sequence below an enclosing tag name: each
fragment is well formed, triggers no implicit close of the enclosing element,
and no two adjacent fragments are both text runs. -/
def goodForest (pol : TagPolicy) (pname : Option String) : EForest → Bool
  | .nil => true
  | .cons t f =>
      goodTree pol t && rootCloseOk pol pname t &&
      !(isTxtTree t && headIsTxt f) && goodForest pol pname f
end

def forestOfList : List ETree → EForest
  | [] => .nil
  | t :: ts => .cons t (forestOfList ts)

/-- Modelled from the spec: the DocumentHandle depth-first pre-order
traversal, reconstructing the nesting recorded in the arena.  The fuel
argument bounds the descent; it is instantiated with the arena size, which
dominates the tree depth. -/
def nodeToTree (s : NodeStore) : Nat → Nat → ETree
  | 0, _ => ETree.txt ""
  | fuel + 1, i =>
      match s.kindOf i with
      | some (.element t a) =>
          ETree.elem t a (forestOfList ((s.childrenOf i).map (nodeToTree s fuel)))
      | some (.text d) => ETree.txt d
      | some (.comment d) => ETree.com d
      | some (.doctype _ _ _) => ETree.txt ""
      | none => ETree.txt ""

/-- Modelled from the spec: pre-order reading of the whole document. -/
def rootForest (s : NodeStore) : EForest :=
  forestOfList (s.rootChildren.map (nodeToTree s s.nodes.length))

/-- Structural invariant of the arena alone: unique parenthood, upward index
edges, childless void elements, and no adjacent Text siblings anywhere. -/
structure SInv (pol : TagPolicy) (s : NodeStore) : Prop where
  oneP : oneParent s
  edges : edgesIncrease s
  voidEmpty : ∀ i t a, s.kindOf i = some (.element t a) → pol.isVoid t = true →
    s.childrenOf i = []
  adjRoot : noAdjTextList s s.rootChildren
  adjChild : ∀ p : Nat, noAdjTextList s (s.childrenOf p)

/-- Invariant of a builder state: the arena invariant plus validity of the
InsertionStack — every open entry is an allocated non-void element. -/
structure BInv (pol : TagPolicy) (b : Builder) : Prop where
  sinv : SInv pol b.store
  stackLt : ∀ i ∈ b.stack, i < b.store.nodes.length
  stackElem : ∀ i ∈ b.stack, ∃ t a, b.store.kindOf i = some (.element t a) ∧
    pol.isVoid t = false

/-- Concrete TagPolicy used to exercise the builder on closed inputs: br is
void, li implicitly closes li, nothing is raw text. -/
def testPolicy : TagPolicy :=
  ⟨fun n => n == "br", fun _ => false, fun n t => n == "li" && t == "li"⟩

end BSpec

namespace BS4CSS

/-
Shallow embedding of src/bs4/css.py.  The soupsieve module is modelled as an
optional record of the functions css.py calls on it; the module-level name
soupsieve (None when the import failed) is passed explicitly where the source
reads it.  Raising NotImplementedError is modelled with Except.
-/

/-- A bs4 Tag as css.py sees it: an identity plus the namespace prefixes
collected while parsing (the tag._namespaces attribute read by _ns). -/
structure Tag where
  id : Nat
  namespaces : List (String × String)
deriving DecidableEq

/-- A selector argument: either a raw selector string or a precompiled
soupsieve.SoupSieve pattern (the isinstance check in _ns distinguishes
these). -/
inductive Selector where
  | raw (s : String)
  | compiled (id : Nat)
deriving DecidableEq

/-- The surface of the soupsieve module used by css.py. -/
structure SoupSieveApi where
  escape : String → String
  compile : Selector → Option (List (String × String)) → Nat → Nat
  select : Selector → Tag → Option (List (String × String)) → Option Nat → Nat → List Tag
  selectOne : Selector → Tag → Option (List (String × String)) → Nat → Option Tag
  iselect : Selector → Tag → Option (List (String × String)) → Option Nat → Nat → List Tag
  closest : Selector → Tag → Option (List (String × String)) → Nat → Option Tag
  matchSel : Selector → Tag → Option (List (String × String)) → Nat → Bool
  filter : Selector → Tag → Option (List (String × String)) → Nat → List Tag

inductive CSSError where
  | notImplementedError (msg : String)

/-- The CSS proxy object: the api chosen at construction time and the tag the
object is permanently scoped to. -/
structure CSS where
  api : SoupSieveApi
  tag : Tag

/-- CSS.__init__: default the api argument to the module-level soupsieve,
raise NotImplementedError when that is also None, otherwise store the chosen
api and the tag. -/
def CSS.init (soupsieve : Option SoupSieveApi) (tag : Tag)
    (api : Option SoupSieveApi) : Except CSSError CSS :=
  let api := match api with
    | none => soupsieve
    | some a => some a
  match api with
  | none => .error (.notImplementedError
      "Cannot execute CSS selectors because the soupsieve package is not installed.")
  | some a => .ok ⟨a, tag⟩

/-- CSS.escape: tests the module-level soupsieve import (not the stored api)
and only then delegates to self.api.escape. -/
def CSS.escape (soupsieve : Option SoupSieveApi) (c : CSS) (ident : String) :
    Except CSSError String :=
  match soupsieve with
  | none => .error (.notImplementedError
      "Cannot escape CSS identifiers because the soupsieve package is not installed.")
  | some _ => .ok (c.api.escape ident)

def isSoupSieveInstance : Selector → Bool
  | .compiled _ => true
  | .raw _ => false

/-- CSS._ns: default the namespace mapping to the tag's parsed prefixes
unless the selector is a precompiled pattern. -/
def CSS.ns (c : CSS) (ns : Option (List (String × String))) (select : Selector) :
    Option (List (String × String)) :=
  if !isSoupSieveInstance select && ns.isNone then some c.tag.namespaces else ns

/-- The bs4 ResultSet wrapper produced by CSS._rs (source argument None). -/
structure ResultSet where
  source : Option Unit
  results : List Tag
deriving DecidableEq

/-- CSS._rs: wrap a list of results in a ResultSet with source None. -/
def CSS.rs (results : List Tag) : ResultSet := ⟨none, results⟩

/-- CSS.compile: delegate to self.api.compile with normalized namespaces. -/
def CSS.compileSel (c : CSS) (select : Selector)
    (namespaces : Option (List (String × String))) (flags : Nat) : Nat :=
  c.api.compile select (c.ns namespaces select) flags

/-- CSS.select_one: delegate to self.api.select_one with normalized
namespaces. -/
def CSS.selectOne (c : CSS) (select : Selector)
    (namespaces : Option (List (String × String))) (flags : Nat) : Option Tag :=
  c.api.selectOne select c.tag (c.ns namespaces select) flags

/-- CSS.select: replace a limit of None by 0, then delegate to
self.api.select and wrap the results. -/
def CSS.select (c : CSS) (select : Selector)
    (namespaces : Option (List (String × String))) (limit : Option Nat)
    (flags : Nat) : ResultSet :=
  let limit : Option Nat := match limit with
    | none => some 0
    | some l => some l
  CSS.rs (c.api.select select c.tag (c.ns namespaces select) limit flags)

/-- CSS.iselect: delegate to self.api.iselect; the limit is passed through
unchanged. -/
def CSS.iselect (c : CSS) (select : Selector)
    (namespaces : Option (List (String × String))) (limit : Option Nat)
    (flags : Nat) : List Tag :=
  c.api.iselect select c.tag (c.ns namespaces select) limit flags

/-- CSS.closest: delegate to self.api.closest. -/
def CSS.closest (c : CSS) (select : Selector)
    (namespaces : Option (List (String × String))) (flags : Nat) : Option Tag :=
  c.api.closest select c.tag (c.ns namespaces select) flags

/-- CSS.match: delegate to self.api.match. -/
def CSS.matchSelector (c : CSS) (select : Selector)
    (namespaces : Option (List (String × String))) (flags : Nat) : Bool :=
  c.api.matchSel select c.tag (c.ns namespaces select) flags

/-- CSS.filter: delegate to self.api.filter and wrap the results. -/
def CSS.filterSel (c : CSS) (select : Selector)
    (namespaces : Option (List (String × String))) (flags : Nat) : ResultSet :=
  CSS.rs (c.api.filter select c.tag (c.ns namespaces select) flags)

end BS4CSS

namespace BSpec

@[simp] theorem getAt_nil {α : Type} (i : Nat) : getAt ([] : List α) i = none := rfl

@[simp] theorem getAt_cons_zero {α : Type} (x : α) (xs : List α) :
    getAt (x :: xs) 0 = some x := rfl

@[simp] theorem getAt_cons_succ {α : Type} (x : α) (xs : List α) (n : Nat) :
    getAt (x :: xs) (n + 1) = getAt xs n := rfl

theorem getAt_append_lt {α : Type} (l l' : List α) (i : Nat) (h : i < l.length) :
    getAt (l ++ l') i = getAt l i := by
  induction l generalizing i with
  | nil => simp at h
  | cons x xs ih =>
    cases i with
    | zero => rfl
    | succ n => simpa using ih n (by simpa using Nat.lt_of_succ_lt_succ h)

theorem getAt_ge {α : Type} (l : List α) (i : Nat) (h : l.length ≤ i) :
    getAt l i = none := by
  induction l generalizing i with
  | nil => rfl
  | cons x xs ih =>
    cases i with
    | zero => simp at h
    | succ n => simpa using ih n (by simpa using Nat.le_of_succ_le_succ h)

theorem getAt_concat {α : Type} (l : List α) (x : α) (i : Nat) :
    getAt (l ++ [x]) i = if i = l.length then some x else getAt l i := by
  induction l generalizing i with
  | nil =>
    cases i with
    | zero => simp
    | succ n => cases n <;> simp [getAt]
  | cons y ys ih =>
    cases i with
    | zero => simp
    | succ n => simpa [Nat.succ_eq_add_one] using ih n

theorem getAt_isSome_iff {α : Type} (l : List α) (i : Nat) :
    (getAt l i).isSome = true ↔ i < l.length := by
  induction l generalizing i with
  | nil => simp
  | cons x xs ih =>
    cases i with
    | zero => simp
    | succ n => simpa using ih n

theorem length_modifyAt {α : Type} (f : α → α) (l : List α) (i : Nat) :
    (modifyAt f l i).length = l.length := by
  induction l generalizing i with
  | nil => rfl
  | cons x xs ih =>
    cases i with
    | zero => rfl
    | succ n => simpa [modifyAt] using ih n

theorem getAt_modifyAt {α : Type} (f : α → α) (l : List α) (i j : Nat) :
    getAt (modifyAt f l i) j = if i = j then (getAt l j).map f else getAt l j := by
  induction l generalizing i j with
  | nil => simp [modifyAt]
  | cons x xs ih =>
    cases i with
    | zero =>
      cases j with
      | zero => simp [modifyAt]
      | succ m => simp [modifyAt]
    | succ n =>
      cases j with
      | zero => simp [modifyAt]
      | succ m =>
        simp only [modifyAt, getAt_cons_succ]
        rw [ih n m]
        by_cases h : n = m
        · simp [h]
        · simp [h, fun hc => h (Nat.succ_injective hc)]

theorem modifyAt_modifyAt_same {α : Type} (f g : α → α) (l : List α) (i : Nat) :
    modifyAt f (modifyAt g l i) i = modifyAt (fun a => f (g a)) l i := by
  induction l generalizing i with
  | nil => rfl
  | cons x xs ih =>
    cases i with
    | zero => rfl
    | succ n => simp [modifyAt, ih n]

@[simp] theorem countOcc_nil (i : Nat) : countOcc [] i = 0 := rfl

theorem countOcc_append (l l' : List Nat) (i : Nat) :
    countOcc (l ++ l') i = countOcc l i + countOcc l' i := by
  induction l with
  | nil => simp [countOcc]
  | cons x xs ih => simp [countOcc, ih, Nat.add_assoc]

theorem countOcc_singleton (x i : Nat) :
    countOcc [x] i = if x = i then 1 else 0 := by
  simp [countOcc]

theorem countOcc_pos_of_mem {l : List Nat} {x : Nat} (h : x ∈ l) :
    0 < countOcc l x := by
  induction l with
  | nil => simp at h
  | cons y ys ih =>
    rcases List.mem_cons.mp h with h | h
    · simp [countOcc, h]
    · have := ih h
      simp only [countOcc]
      omega

@[simp] theorem flatAll_nil : flatAll [] = [] := rfl

@[simp] theorem flatAll_cons (l : List Nat) (ls : List (List Nat)) :
    flatAll (l :: ls) = l ++ flatAll ls := rfl

theorem flatAll_append (ls ls' : List (List Nat)) :
    flatAll (ls ++ ls') = flatAll ls ++ flatAll ls' := by
  induction ls with
  | nil => simp
  | cons l ls ih => simp [ih]

theorem mem_flatAll {x : Nat} {ls : List (List Nat)} :
    x ∈ flatAll ls ↔ ∃ l ∈ ls, x ∈ l := by
  induction ls with
  | nil => simp
  | cons l ls ih =>
    simp only [flatAll_cons, List.mem_append, ih, List.mem_cons]
    constructor
    · rintro (h | ⟨l', hl', hx⟩)
      · exact ⟨l, Or.inl rfl, h⟩
      · exact ⟨l', Or.inr hl', hx⟩
    · rintro ⟨l', hl' | hl', hx⟩
      · exact Or.inl (hl' ▸ hx)
      · exact Or.inr ⟨l', hl', hx⟩

theorem countOcc_flatAll_map_modifyAt (l : List StoredNode) (q : Nat)
    (hq : q < l.length) (x i : Nat) :
    countOcc (flatAll ((modifyAt (fun n => ⟨n.kind, n.children ++ [x]⟩) l q).map
        (·.children))) i
      = countOcc (flatAll (l.map (·.children))) i + (if i = x then 1 else 0) := by
  induction l generalizing q with
  | nil => simp at hq
  | cons nd nds ih =>
    cases q with
    | zero =>
      simp only [modifyAt, List.map_cons, flatAll_cons, countOcc_append]
      have hx : countOcc [x] i = if i = x then 1 else 0 := by
        rw [countOcc_singleton]
        by_cases h : x = i
        · simp [h]
        · have h2 : ¬ i = x := fun hc => h hc.symm
          simp [h, h2]
      rw [hx]
      omega
    | succ n =>
      have hn : n < nds.length := by simpa using Nat.lt_of_succ_lt_succ hq
      simp only [modifyAt, List.map_cons, flatAll_cons, countOcc_append, ih n hn]
      omega

theorem lastElem?_concat (l : List Nat) (x : Nat) : lastElem? (l ++ [x]) = some x := by
  induction l with
  | nil => rfl
  | cons y ys ih =>
    cases ys with
    | nil => simp [lastElem?]
    | cons z zs => simpa [lastElem?] using ih

theorem lastElem?_mem {l : List Nat} {x : Nat} (h : lastElem? l = some x) : x ∈ l := by
  induction l with
  | nil => simp [lastElem?] at h
  | cons y ys ih =>
    cases ys with
    | nil =>
      simp [lastElem?] at h
      simp [h]
    | cons z zs =>
      simp only [lastElem?] at h
      exact List.mem_cons_of_mem _ (ih h)

theorem noAdjTextList_concat (s : NodeStore) (l : List Nat) (x : Nat)
    (h : noAdjTextList s l)
    (hlast : ∀ a, lastElem? l = some a →
      ¬(isTextNode s a = true ∧ isTextNode s x = true)) :
    noAdjTextList s (l ++ [x]) := by
  induction l with
  | nil => trivial
  | cons y ys ih =>
    cases ys with
    | nil =>
      exact ⟨hlast y rfl, trivial⟩
    | cons z zs =>
      obtain ⟨h1, h2⟩ := h
      exact ⟨h1, ih h2 (fun a ha => hlast a ha)⟩

theorem noAdjTextList_congr (s s' : NodeStore) (l : List Nat)
    (h : ∀ c ∈ l, isTextNode s' c = isTextNode s c)
    (hl : noAdjTextList s l) : noAdjTextList s' l := by
  induction l with
  | nil => trivial
  | cons y ys ih =>
    cases ys with
    | nil => trivial
    | cons z zs =>
      obtain ⟨h1, h2⟩ := hl
      refine ⟨?_, ih (fun c hc => h c (List.mem_cons_of_mem _ hc)) h2⟩
      rw [h y (by simp), h z (by simp)]
      exact h1

end BSpec

namespace BSpec

theorem getAt_mem {α : Type} {l : List α} {i : Nat} {x : α} (h : getAt l i = some x) :
    x ∈ l := by
  induction l generalizing i with
  | nil => simp [getAt] at h
  | cons y ys ih =>
    cases i with
    | zero =>
      simp only [getAt_cons_zero, Option.some.injEq] at h
      simp [h]
    | succ n => exact List.mem_cons_of_mem _ (ih h)

theorem length_addChild (s : NodeStore) (p : Option Nat) (k : NodeKind) :
    (s.addChild p k).nodes.length = s.nodes.length + 1 := by
  cases p with
  | none => simp [NodeStore.addChild]
  | some q => simp [NodeStore.addChild, length_modifyAt]

theorem kindOf_addChild (s : NodeStore) (p : Option Nat) (k : NodeKind) (i : Nat) :
    (s.addChild p k).kindOf i =
      if i = s.nodes.length then some k else s.kindOf i := by
  cases p with
  | none =>
    simp only [NodeStore.addChild, NodeStore.kindOf]
    rw [getAt_concat]
    by_cases h : i = s.nodes.length
    · simp [h]
    · simp [h]
  | some q =>
    simp only [NodeStore.addChild, NodeStore.kindOf, getAt_modifyAt, getAt_concat]
    by_cases hq : q = i
    · by_cases h : i = s.nodes.length
      · simp [hq, h]
      · simp [hq, h, Option.map_map]
        cases getAt s.nodes i <;> rfl
    · by_cases h : i = s.nodes.length
      · have hq2 : ¬ q = s.nodes.length := by rw [← h]; exact hq
        simp [hq, h, hq2]
      · simp [hq, h]

theorem childrenOf_addChild_none (s : NodeStore) (k : NodeKind) (j : Nat) :
    (s.addChild none k).childrenOf j = s.childrenOf j := by
  simp only [NodeStore.addChild, NodeStore.childrenOf]
  rw [getAt_concat]
  by_cases h : j = s.nodes.length
  · rw [if_pos h, h, getAt_ge s.nodes s.nodes.length (Nat.le_refl _)]
    rfl
  · simp [h]

theorem childrenOf_addChild_some (s : NodeStore) (q : Nat) (k : NodeKind) (j : Nat)
    (hq : q < s.nodes.length) :
    (s.addChild (some q) k).childrenOf j =
      if j = q then s.childrenOf j ++ [s.nodes.length] else s.childrenOf j := by
  simp only [NodeStore.addChild, NodeStore.childrenOf]
  rw [getAt_modifyAt, getAt_concat]
  by_cases hqj : q = j
  · subst hqj
    have h : ¬ q = s.nodes.length := Nat.ne_of_lt hq
    simp only [h, if_false, if_true, if_pos rfl]
    obtain ⟨x, hx⟩ := Option.isSome_iff_exists.mp ((getAt_isSome_iff s.nodes q).mpr hq)
    simp [hx]
  · have : ¬ j = q := fun hc => hqj hc.symm
    simp only [hqj, if_false, this]
    by_cases h : j = s.nodes.length
    · rw [if_pos h, h, getAt_ge s.nodes s.nodes.length (Nat.le_refl _)]
      rfl
    · simp [h]

theorem rootChildren_addChild_none (s : NodeStore) (k : NodeKind) :
    (s.addChild none k).rootChildren = s.rootChildren ++ [s.nodes.length] := rfl

theorem rootChildren_addChild_some (s : NodeStore) (q : Nat) (k : NodeKind) :
    (s.addChild (some q) k).rootChildren = s.rootChildren := rfl

theorem length_setKind (s : NodeStore) (i : Nat) (k : NodeKind) :
    (s.setKind i k).nodes.length = s.nodes.length := by
  simp [NodeStore.setKind, length_modifyAt]

theorem kindOf_setKind (s : NodeStore) (i : Nat) (k : NodeKind) (j : Nat) :
    (s.setKind i k).kindOf j =
      if i = j then (s.kindOf j).map (fun _ => k) else s.kindOf j := by
  simp only [NodeStore.setKind, NodeStore.kindOf]
  rw [getAt_modifyAt]
  by_cases h : i = j
  · simp [h, Option.map_map]
    cases getAt s.nodes j <;> rfl
  · simp [h]

theorem childrenOf_setKind (s : NodeStore) (i : Nat) (k : NodeKind) (j : Nat) :
    (s.setKind i k).childrenOf j = s.childrenOf j := by
  simp only [NodeStore.setKind, NodeStore.childrenOf]
  rw [getAt_modifyAt]
  by_cases h : i = j
  · simp [h, Option.map_map]
    cases getAt s.nodes j <;> rfl
  · simp [h]

theorem rootChildren_setKind (s : NodeStore) (i : Nat) (k : NodeKind) :
    (s.setKind i k).rootChildren = s.rootChildren := rfl

theorem map_children_modifyAt (l : List StoredNode) (i : Nat)
    (f : StoredNode → StoredNode) (hf : ∀ n, (f n).children = n.children) :
    (modifyAt f l i).map (·.children) = l.map (·.children) := by
  induction l generalizing i with
  | nil => rfl
  | cons x xs ih =>
    cases i with
    | zero => simp [modifyAt, hf]
    | succ n => simp [modifyAt, ih n]

theorem childRefs_setKind (s : NodeStore) (i : Nat) (k : NodeKind) :
    (s.setKind i k).childRefs = s.childRefs := by
  simp only [NodeStore.childRefs, NodeStore.setKind]
  rw [map_children_modifyAt s.nodes i (fun n => ⟨k, n.children⟩) (fun n => rfl)]

theorem countOcc_childRefs_addChild (s : NodeStore) (p : Option Nat) (k : NodeKind)
    (hp : ∀ q, p = some q → q < s.nodes.length) (i : Nat) :
    countOcc (s.addChild p k).childRefs i =
      countOcc s.childRefs i + (if i = s.nodes.length then 1 else 0) := by
  cases p with
  | none =>
    simp only [NodeStore.addChild, NodeStore.childRefs, List.map_append, List.map_cons,
      List.map_nil, flatAll_append, flatAll_cons, flatAll_nil, countOcc_append]
    have hx : countOcc [s.nodes.length] i = if i = s.nodes.length then 1 else 0 := by
      rw [countOcc_singleton]
      by_cases h : s.nodes.length = i
      · simp [h]
      · have h2 : ¬ i = s.nodes.length := fun hc => h hc.symm
        simp [h, h2]
    rw [hx]
    simp only [countOcc_nil]
    omega
  | some q =>
    have hq : q < (s.nodes ++ [(⟨k, []⟩ : StoredNode)]).length := by
      have := hp q rfl
      simp only [List.length_append, List.length_cons, List.length_nil]
      omega
    simp only [NodeStore.addChild, NodeStore.childRefs, countOcc_append]
    rw [countOcc_flatAll_map_modifyAt _ _ hq]
    simp only [List.map_append, List.map_cons, List.map_nil, flatAll_append, flatAll_cons,
      flatAll_nil, countOcc_append, countOcc_nil]
    omega

theorem mem_childRefs_of_mem_childrenOf {s : NodeStore} {j c : Nat}
    (hc : c ∈ s.childrenOf j) : c ∈ s.childRefs := by
  simp only [NodeStore.childrenOf] at hc
  cases hg : getAt s.nodes j with
  | none => rw [hg] at hc; simp at hc
  | some n =>
    rw [hg] at hc
    simp at hc
    have hn : n ∈ s.nodes := getAt_mem hg
    have : n.children ∈ s.nodes.map (·.children) := List.mem_map_of_mem _ hn
    exact List.mem_append_right _ (mem_flatAll.mpr ⟨n.children, this, hc⟩)

theorem mem_childRefs_of_mem_root {s : NodeStore} {c : Nat}
    (hc : c ∈ s.rootChildren) : c ∈ s.childRefs :=
  List.mem_append_left _ hc

theorem childRefs_bound {s : NodeStore} (h : oneParent s) {c : Nat}
    (hc : c ∈ s.childRefs) : c < s.nodes.length := by
  have hpos := countOcc_pos_of_mem hc
  by_contra hge
  rw [h c, if_neg hge] at hpos
  exact Nat.lt_irrefl 0 hpos

theorem isTextNode_eq_of_kind {s : NodeStore} {i : Nat} {k : NodeKind}
    (h : s.kindOf i = some k) : isTextNode s i = isTextKind k := by
  unfold isTextNode
  rw [h]
  cases k <;> rfl

theorem isTextNode_addChild_lt (s : NodeStore) (p : Option Nat) (k : NodeKind)
    {c : Nat} (hc : c < s.nodes.length) :
    isTextNode (s.addChild p k) c = isTextNode s c := by
  unfold isTextNode
  rw [kindOf_addChild, if_neg (Nat.ne_of_lt hc)]

theorem childListOf_addChild_self (s : NodeStore) (p : Option Nat) (k : NodeKind)
    (hp : ∀ q, p = some q → q < s.nodes.length) :
    childListOf (s.addChild p k) p = childListOf s p ++ [s.nodes.length] := by
  cases p with
  | none => simp [childListOf, rootChildren_addChild_none]
  | some q =>
    simp only [childListOf]
    rw [childrenOf_addChild_some _ _ _ _ (hp q rfl), if_pos rfl]

theorem lastChildText_addChild (s : NodeStore) (p : Option Nat) (k : NodeKind)
    (hp : ∀ q, p = some q → q < s.nodes.length) :
    lastChildText (s.addChild p k) p = isTextKind k := by
  unfold lastChildText
  rw [childListOf_addChild_self s p k hp, lastElem?_concat]
  exact isTextNode_eq_of_kind (by rw [kindOf_addChild, if_pos rfl])

end BSpec

namespace BSpec

theorem childrenOf_length_self (s : NodeStore) : s.childrenOf s.nodes.length = [] := by
  unfold NodeStore.childrenOf
  rw [getAt_ge s.nodes _ (Nat.le_refl _)]
  rfl

theorem lastChildText_spec (s : NodeStore) (parent : Option Nat) (a : Nat)
    (h : lastElem? (childListOf s parent) = some a) :
    lastChildText s parent = isTextNode s a := by
  unfold lastChildText
  rw [h]

theorem sinv_addChild (pol : TagPolicy) (s : NodeStore) (hs : SInv pol s)
    (parent : Option Nat) (k : NodeKind)
    (hq : ∀ q, parent = some q → q < s.nodes.length ∧
      ∃ t a, s.kindOf q = some (.element t a) ∧ pol.isVoid t = false)
    (ht : isTextKind k = true → lastChildText s parent = false) :
    SInv pol (s.addChild parent k) := by
  have hqlt : ∀ q, parent = some q → q < s.nodes.length := fun q h => (hq q h).1
  have hnewkind : (s.addChild parent k).kindOf s.nodes.length = some k := by
    rw [kindOf_addChild, if_pos rfl]
  have hlastpair : ∀ a, lastElem? (childListOf s parent) = some a →
      a < s.nodes.length →
      ¬(isTextNode (s.addChild parent k) a = true ∧
        isTextNode (s.addChild parent k) s.nodes.length = true) := by
    intro a ha halt hcontra
    obtain ⟨h1, h2⟩ := hcontra
    have h1' : isTextNode s a = true := by
      rw [← isTextNode_addChild_lt s parent k halt]
      exact h1
    have hk2 : isTextKind k = true := by
      rw [← isTextNode_eq_of_kind hnewkind]
      exact h2
    have hfalse := ht hk2
    rw [lastChildText_spec s parent a ha, h1'] at hfalse
    exact Bool.noConfusion hfalse
  constructor
  · intro i
    rw [countOcc_childRefs_addChild s parent k hqlt i, hs.oneP i, length_addChild]
    by_cases h1 : i < s.nodes.length
    · rw [if_pos h1, if_pos (Nat.lt_succ_of_lt h1), if_neg (Nat.ne_of_lt h1)]
    · by_cases h2 : i = s.nodes.length
      · rw [if_neg h1, if_pos h2, if_pos (by omega)]
      · rw [if_neg h1, if_neg h2, if_neg (by omega)]
  · intro p c hc
    cases parent with
    | none =>
      rw [childrenOf_addChild_none] at hc
      exact hs.edges p c hc
    | some q =>
      rw [childrenOf_addChild_some s q k p (hqlt q rfl)] at hc
      by_cases hpq : p = q
      · rw [if_pos hpq] at hc
        rcases List.mem_append.mp hc with h | h
        · exact hs.edges p c h
        · have hc2 : c = s.nodes.length := by simpa using h
          have h3 : q < s.nodes.length := hqlt q rfl
          rw [hpq, hc2]
          exact h3
      · rw [if_neg hpq] at hc
        exact hs.edges p c hc
  · intro i t a hk hv
    rw [kindOf_addChild] at hk
    by_cases hi : i = s.nodes.length
    · rw [if_pos hi] at hk
      cases parent with
      | none =>
        rw [childrenOf_addChild_none, hi]
        exact childrenOf_length_self s
      | some q =>
        rw [childrenOf_addChild_some s q k i (hqlt q rfl)]
        have hne : ¬ i = q := by
          have := hqlt q rfl
          omega
        rw [if_neg hne, hi]
        exact childrenOf_length_self s
    · rw [if_neg hi] at hk
      cases parent with
      | none =>
        rw [childrenOf_addChild_none]
        exact hs.voidEmpty i t a hk hv
      | some q =>
        rw [childrenOf_addChild_some s q k i (hqlt q rfl)]
        by_cases hiq : i = q
        · obtain ⟨t', a', hk', hv'⟩ := (hq q rfl).2
          rw [hiq] at hk
          rw [hk] at hk'
          have hta : t = t' ∧ a = a' := by simpa using hk'
          rw [← hta.1] at hv'
          rw [hv] at hv'
          exact Bool.noConfusion hv'
        · rw [if_neg hiq]
          exact hs.voidEmpty i t a hk hv
  · cases parent with
    | some q =>
      rw [rootChildren_addChild_some]
      exact noAdjTextList_congr s (s.addChild (some q) k) s.rootChildren
        (fun c hc => isTextNode_addChild_lt s (some q) k
          (childRefs_bound hs.oneP (mem_childRefs_of_mem_root hc)))
        hs.adjRoot
    | none =>
      rw [rootChildren_addChild_none]
      apply noAdjTextList_concat
      · exact noAdjTextList_congr s (s.addChild none k) s.rootChildren
          (fun c hc => isTextNode_addChild_lt s none k
            (childRefs_bound hs.oneP (mem_childRefs_of_mem_root hc)))
          hs.adjRoot
      · intro a ha
        have ha' : a ∈ s.rootChildren := lastElem?_mem ha
        have halt : a < s.nodes.length :=
          childRefs_bound hs.oneP (mem_childRefs_of_mem_root ha')
        exact hlastpair a ha halt
  · intro p
    cases parent with
    | none =>
      rw [childrenOf_addChild_none]
      exact noAdjTextList_congr s (s.addChild none k) (s.childrenOf p)
        (fun c hc => isTextNode_addChild_lt s none k
          (childRefs_bound hs.oneP (mem_childRefs_of_mem_childrenOf hc)))
        (hs.adjChild p)
    | some q =>
      rw [childrenOf_addChild_some s q k p (hqlt q rfl)]
      by_cases hpq : p = q
      · rw [if_pos hpq]
        apply noAdjTextList_concat
        · exact noAdjTextList_congr s (s.addChild (some q) k) (s.childrenOf p)
            (fun c hc => isTextNode_addChild_lt s (some q) k
              (childRefs_bound hs.oneP (mem_childRefs_of_mem_childrenOf hc)))
            (hs.adjChild p)
        · intro a ha
          have ha' : a ∈ s.childrenOf p := lastElem?_mem ha
          have halt : a < s.nodes.length :=
            childRefs_bound hs.oneP (mem_childRefs_of_mem_childrenOf ha')
          have ha2 : lastElem? (childListOf s (some q)) = some a := by
            simpa [childListOf, hpq] using ha
          exact hlastpair a ha2 halt
      · rw [if_neg hpq]
        exact noAdjTextList_congr s (s.addChild (some q) k) (s.childrenOf p)
          (fun c hc => isTextNode_addChild_lt s (some q) k
            (childRefs_bound hs.oneP (mem_childRefs_of_mem_childrenOf hc)))
          (hs.adjChild p)

theorem sinv_setKind_text (pol : TagPolicy) (s : NodeStore) (hs : SInv pol s)
    (ci : Nat) (old d : String) (hk : s.kindOf ci = some (.text old)) :
    SInv pol (s.setKind ci (.text (old ++ d))) := by
  have hit : ∀ j, isTextNode (s.setKind ci (.text (old ++ d))) j = isTextNode s j := by
    intro j
    unfold isTextNode
    rw [kindOf_setKind]
    by_cases h : ci = j
    · rw [if_pos h, ← h, hk]
      rfl
    · rw [if_neg h]
  constructor
  · intro i
    rw [childRefs_setKind, length_setKind]
    exact hs.oneP i
  · intro p c hc
    rw [childrenOf_setKind] at hc
    exact hs.edges p c hc
  · intro i t a hk2 hv
    rw [childrenOf_setKind]
    rw [kindOf_setKind] at hk2
    by_cases h : ci = i
    · rw [if_pos h, ← h, hk] at hk2
      exact absurd hk2 (by simp)
    · rw [if_neg h] at hk2
      exact hs.voidEmpty i t a hk2 hv
  · rw [rootChildren_setKind]
    exact noAdjTextList_congr s _ s.rootChildren (fun c _ => hit c) hs.adjRoot
  · intro p
    rw [childrenOf_setKind]
    exact noAdjTextList_congr s _ (s.childrenOf p) (fun c _ => hit c) (hs.adjChild p)

theorem mem_topOf {st : List Nat} {p : Nat} (h : topOf st = some p) : p ∈ st := by
  cases st with
  | nil => simp [topOf] at h
  | cons x xs =>
    simp only [topOf, Option.some.injEq] at h
    simp [h]

theorem mem_popImplied {pol : TagPolicy} {s : NodeStore} {n : String} :
    ∀ {st : List Nat} {x : Nat}, x ∈ popImplied pol s n st → x ∈ st := by
  intro st
  induction st with
  | nil => intro x hx; simp [popImplied] at hx
  | cons top rest ih =>
    intro x hx
    unfold popImplied at hx
    cases htag : s.tagOf top with
    | none =>
      simp only [htag] at hx
      exact hx
    | some t =>
      simp only [htag] at hx
      by_cases hcl : pol.closes n t
      · rw [if_pos hcl] at hx
        exact List.mem_cons_of_mem _ (ih hx)
      · rw [if_neg hcl] at hx
        exact hx

theorem mem_popThroughTag {s : NodeStore} {n : String} :
    ∀ {st : List Nat} {x : Nat}, x ∈ popThroughTag s n st → x ∈ st := by
  intro st
  induction st with
  | nil => intro x hx; simp [popThroughTag] at hx
  | cons top rest ih =>
    intro x hx
    unfold popThroughTag at hx
    by_cases hm : s.tagOf top == some n
    · rw [if_pos hm] at hx
      exact List.mem_cons_of_mem _ hx
    · rw [if_neg hm] at hx
      exact List.mem_cons_of_mem _ (ih hx)

theorem mem_closeThrough {s : NodeStore} {n : String} {st : List Nat} {x : Nat}
    (h : x ∈ closeThrough s n st) : x ∈ st := by
  unfold closeThrough at h
  by_cases hh : stackHasTag s n st
  · rw [if_pos hh] at h
    exact mem_popThroughTag h
  · rw [if_neg hh] at h
    exact h

theorem handleText_merge (b : Builder) (d : String) (ci : Nat) (old : String)
    (hlast : lastElem? (childListOf b.store (topOf b.stack)) = some ci)
    (hk : b.store.kindOf ci = some (.text old)) :
    b.handleText d = ⟨b.store.setKind ci (.text (old ++ d)), b.stack⟩ := by
  unfold Builder.handleText
  simp only [hlast, hk]

theorem handleText_append_none (b : Builder) (d : String)
    (hlast : lastElem? (childListOf b.store (topOf b.stack)) = none) :
    b.handleText d = ⟨b.store.addChild (topOf b.stack) (.text d), b.stack⟩ := by
  unfold Builder.handleText
  simp only [hlast]

theorem handleText_append_other (b : Builder) (d : String) (ci : Nat)
    (hlast : lastElem? (childListOf b.store (topOf b.stack)) = some ci)
    (hk : ∀ old, ¬ b.store.kindOf ci = some (.text old)) :
    b.handleText d = ⟨b.store.addChild (topOf b.stack) (.text d), b.stack⟩ := by
  unfold Builder.handleText
  cases hko : b.store.kindOf ci with
  | none => simp only [hlast, hko]
  | some knd =>
    cases knd with
    | text old => exact absurd hko (hk old)
    | element t a => simp only [hlast, hko]
    | comment c => simp only [hlast, hko]
    | doctype x y z => simp only [hlast, hko]

end BSpec

namespace BSpec

theorem binv_step (pol : TagPolicy) (b : Builder) (e : Event) (hb : BInv pol b) :
    BInv pol (step pol b e) := by
  cases e with
  | startTag n a =>
    have hmem : ∀ x ∈ popImplied pol b.store n b.stack, x ∈ b.stack :=
      fun x hx => mem_popImplied hx
    have hq : ∀ q, topOf (popImplied pol b.store n b.stack) = some q →
        q < b.store.nodes.length ∧ ∃ t a2, b.store.kindOf q = some (.element t a2) ∧
          pol.isVoid t = false := by
      intro q hq0
      have hqm : q ∈ b.stack := hmem q (mem_topOf hq0)
      exact ⟨hb.stackLt q hqm, hb.stackElem q hqm⟩
    have hs' : SInv pol (b.store.addChild (topOf (popImplied pol b.store n b.stack))
        (.element n a)) :=
      sinv_addChild pol b.store hb.sinv _ _ hq (fun hco => by simp [isTextKind] at hco)
    refine ⟨hs', ?_, ?_⟩
    · intro i hi
      simp only [step, Builder.handleStart] at hi ⊢
      rw [length_addChild]
      by_cases hv : pol.isVoid n
      · rw [if_pos hv] at hi
        exact Nat.lt_succ_of_lt (hb.stackLt i (hmem i hi))
      · rw [if_neg hv] at hi
        rcases List.mem_cons.mp hi with h | h
        · rw [h]
          exact Nat.lt_succ_self _
        · exact Nat.lt_succ_of_lt (hb.stackLt i (hmem i h))
    · intro i hi
      simp only [step, Builder.handleStart] at hi ⊢
      by_cases hv : pol.isVoid n
      · rw [if_pos hv] at hi
        obtain ⟨t, a2, hk, hnv⟩ := hb.stackElem i (hmem i hi)
        refine ⟨t, a2, ?_, hnv⟩
        rw [kindOf_addChild, if_neg (Nat.ne_of_lt (hb.stackLt i (hmem i hi)))]
        exact hk
      · rw [if_neg hv] at hi
        rcases List.mem_cons.mp hi with h | h
        · refine ⟨n, a, ?_, by simpa using hv⟩
          rw [h, kindOf_addChild, if_pos rfl]
        · obtain ⟨t, a2, hk, hnv⟩ := hb.stackElem i (hmem i h)
          refine ⟨t, a2, ?_, hnv⟩
          rw [kindOf_addChild, if_neg (Nat.ne_of_lt (hb.stackLt i (hmem i h)))]
          exact hk
  | endTag n =>
    refine ⟨hb.sinv, ?_, ?_⟩
    · intro i hi
      exact hb.stackLt i (mem_closeThrough hi)
    · intro i hi
      exact hb.stackElem i (mem_closeThrough hi)
  | text d =>
    have hq : ∀ q, topOf b.stack = some q →
        q < b.store.nodes.length ∧ ∃ t a2, b.store.kindOf q = some (.element t a2) ∧
          pol.isVoid t = false := by
      intro q hq0
      have hqm : q ∈ b.stack := mem_topOf hq0
      exact ⟨hb.stackLt q hqm, hb.stackElem q hqm⟩
    cases hlast : lastElem? (childListOf b.store (topOf b.stack)) with
    | none =>
      have heq := handleText_append_none b d hlast
      have hs' : SInv pol (b.store.addChild (topOf b.stack) (.text d)) := by
        refine sinv_addChild pol b.store hb.sinv _ _ hq (fun _ => ?_)
        unfold lastChildText
        rw [hlast]
      show BInv pol (b.handleText d)
      rw [heq]
      refine ⟨hs', ?_, ?_⟩
      · intro i hi
        rw [length_addChild]
        exact Nat.lt_succ_of_lt (hb.stackLt i hi)
      · intro i hi
        obtain ⟨t, a2, hk, hnv⟩ := hb.stackElem i hi
        refine ⟨t, a2, ?_, hnv⟩
        rw [kindOf_addChild, if_neg (Nat.ne_of_lt (hb.stackLt i hi))]
        exact hk
    | some ci =>
      cases hko : b.store.kindOf ci with
      | some knd =>
        cases knd with
        | text old =>
          have heq := handleText_merge b d ci old hlast hko
          have hs' := sinv_setKind_text pol b.store hb.sinv ci old d hko
          show BInv pol (b.handleText d)
          rw [heq]
          refine ⟨hs', ?_, ?_⟩
          · intro i hi
            rw [length_setKind]
            exact hb.stackLt i hi
          · intro i hi
            obtain ⟨t, a2, hk, hnv⟩ := hb.stackElem i hi
            refine ⟨t, a2, ?_, hnv⟩
            rw [kindOf_setKind]
            by_cases hci : ci = i
            · rw [← hci] at hk
              rw [hko] at hk
              exact absurd hk (by simp)
            · rw [if_neg hci]
              exact hk
        | element t0 a0 =>
          have heq := handleText_append_other b d ci hlast (fun old hc => by
            rw [hko] at hc
            simp at hc)
          have hs' : SInv pol (b.store.addChild (topOf b.stack) (.text d)) := by
            refine sinv_addChild pol b.store hb.sinv _ _ hq (fun _ => ?_)
            rw [lastChildText_spec b.store (topOf b.stack) ci hlast,
              isTextNode_eq_of_kind hko]
            rfl
          show BInv pol (b.handleText d)
          rw [heq]
          refine ⟨hs', ?_, ?_⟩
          · intro i hi
            rw [length_addChild]
            exact Nat.lt_succ_of_lt (hb.stackLt i hi)
          · intro i hi
            obtain ⟨t, a2, hk, hnv⟩ := hb.stackElem i hi
            refine ⟨t, a2, ?_, hnv⟩
            rw [kindOf_addChild, if_neg (Nat.ne_of_lt (hb.stackLt i hi))]
            exact hk
        | comment c0 =>
          have heq := handleText_append_other b d ci hlast (fun old hc => by
            rw [hko] at hc
            simp at hc)
          have hs' : SInv pol (b.store.addChild (topOf b.stack) (.text d)) := by
            refine sinv_addChild pol b.store hb.sinv _ _ hq (fun _ => ?_)
            rw [lastChildText_spec b.store (topOf b.stack) ci hlast,
              isTextNode_eq_of_kind hko]
            rfl
          show BInv pol (b.handleText d)
          rw [heq]
          refine ⟨hs', ?_, ?_⟩
          · intro i hi
            rw [length_addChild]
            exact Nat.lt_succ_of_lt (hb.stackLt i hi)
          · intro i hi
            obtain ⟨t, a2, hk, hnv⟩ := hb.stackElem i hi
            refine ⟨t, a2, ?_, hnv⟩
            rw [kindOf_addChild, if_neg (Nat.ne_of_lt (hb.stackLt i hi))]
            exact hk
        | doctype n0 p0 s0 =>
          have heq := handleText_append_other b d ci hlast (fun old hc => by
            rw [hko] at hc
            simp at hc)
          have hs' : SInv pol (b.store.addChild (topOf b.stack) (.text d)) := by
            refine sinv_addChild pol b.store hb.sinv _ _ hq (fun _ => ?_)
            rw [lastChildText_spec b.store (topOf b.stack) ci hlast,
              isTextNode_eq_of_kind hko]
            rfl
          show BInv pol (b.handleText d)
          rw [heq]
          refine ⟨hs', ?_, ?_⟩
          · intro i hi
            rw [length_addChild]
            exact Nat.lt_succ_of_lt (hb.stackLt i hi)
          · intro i hi
            obtain ⟨t, a2, hk, hnv⟩ := hb.stackElem i hi
            refine ⟨t, a2, ?_, hnv⟩
            rw [kindOf_addChild, if_neg (Nat.ne_of_lt (hb.stackLt i hi))]
            exact hk
      | none =>
        have heq := handleText_append_other b d ci hlast (fun old hc => by
          rw [hko] at hc
          simp at hc)
        have hs' : SInv pol (b.store.addChild (topOf b.stack) (.text d)) := by
          refine sinv_addChild pol b.store hb.sinv _ _ hq (fun _ => ?_)
          rw [lastChildText_spec b.store (topOf b.stack) ci hlast]
          unfold isTextNode
          simp only [hko]
        show BInv pol (b.handleText d)
        rw [heq]
        refine ⟨hs', ?_, ?_⟩
        · intro i hi
          rw [length_addChild]
          exact Nat.lt_succ_of_lt (hb.stackLt i hi)
        · intro i hi
          obtain ⟨t, a2, hk, hnv⟩ := hb.stackElem i hi
          refine ⟨t, a2, ?_, hnv⟩
          rw [kindOf_addChild, if_neg (Nat.ne_of_lt (hb.stackLt i hi))]
          exact hk
  | comment d =>
    have hq : ∀ q, topOf b.stack = some q →
        q < b.store.nodes.length ∧ ∃ t a2, b.store.kindOf q = some (.element t a2) ∧
          pol.isVoid t = false := by
      intro q hq0
      have hqm : q ∈ b.stack := mem_topOf hq0
      exact ⟨hb.stackLt q hqm, hb.stackElem q hqm⟩
    have hs' : SInv pol (b.store.addChild (topOf b.stack) (.comment d)) :=
      sinv_addChild pol b.store hb.sinv _ _ hq (fun hco => by simp [isTextKind] at hco)
    refine ⟨hs', ?_, ?_⟩
    · intro i hi
      show i < (b.store.addChild (topOf b.stack) (.comment d)).nodes.length
      rw [length_addChild]
      exact Nat.lt_succ_of_lt (hb.stackLt i hi)
    · intro i hi
      obtain ⟨t, a2, hk, hnv⟩ := hb.stackElem i hi
      refine ⟨t, a2, ?_, hnv⟩
      show (b.store.addChild (topOf b.stack) (.comment d)).kindOf i = _
      rw [kindOf_addChild, if_neg (Nat.ne_of_lt (hb.stackLt i hi))]
      exact hk
  | doctype n p sy =>
    have hs' : SInv pol (b.store.addChild none (.doctype n p sy)) :=
      sinv_addChild pol b.store hb.sinv _ _ (fun q hc => by cases hc)
        (fun hco => by simp [isTextKind] at hco)
    refine ⟨hs', ?_, ?_⟩
    · intro i hi
      show i < (b.store.addChild none (.doctype n p sy)).nodes.length
      rw [length_addChild]
      exact Nat.lt_succ_of_lt (hb.stackLt i hi)
    · intro i hi
      obtain ⟨t, a2, hk, hnv⟩ := hb.stackElem i hi
      refine ⟨t, a2, ?_, hnv⟩
      show (b.store.addChild none (.doctype n p sy)).kindOf i = _
      rw [kindOf_addChild, if_neg (Nat.ne_of_lt (hb.stackLt i hi))]
      exact hk

theorem sinv_empty (pol : TagPolicy) : SInv pol emptyStore := by
  constructor
  · intro i
    simp [emptyStore, NodeStore.childRefs, countOcc]
  · intro p c hc
    simp [emptyStore, NodeStore.childrenOf, getAt] at hc
  · intro i t a hk
    simp [emptyStore, NodeStore.kindOf, getAt] at hk
  · trivial
  · intro p
    have h : emptyStore.childrenOf p = [] := by
      simp [emptyStore, NodeStore.childrenOf, getAt]
    rw [h]
    trivial

theorem binv_init (pol : TagPolicy) : BInv pol initBuilder := by
  refine ⟨sinv_empty pol, ?_, ?_⟩
  · intro i hi
    simp [initBuilder] at hi
  · intro i hi
    simp [initBuilder] at hi

theorem binv_foldl (pol : TagPolicy) :
    ∀ (es : List Event) (b : Builder), BInv pol b →
      BInv pol (es.foldl (step pol) b) := by
  intro es
  induction es with
  | nil => intro b hb; exact hb
  | cons e es ih =>
    intro b hb
    exact ih (step pol b e) (binv_step pol b e hb)

theorem binv_run (pol : TagPolicy) (es : List Event) : BInv pol (run pol es) :=
  binv_foldl pol es initBuilder (binv_init pol)

end BSpec

namespace BSpec

theorem modifyAt_concat_self {α : Type} (f : α → α) (l : List α) (x : α) :
    modifyAt f (l ++ [x]) l.length = l ++ [f x] := by
  induction l with
  | nil => rfl
  | cons y ys ih => simp [modifyAt, ih]

theorem modifyAt_comm {α : Type} (f g : α → α) (l : List α) (i j : Nat)
    (h : ¬ i = j) :
    modifyAt f (modifyAt g l i) j = modifyAt g (modifyAt f l j) i := by
  induction l generalizing i j with
  | nil => rfl
  | cons y ys ih =>
    cases i with
    | zero =>
      cases j with
      | zero => exact absurd rfl h
      | succ m => rfl
    | succ n =>
      cases j with
      | zero => rfl
      | succ m =>
        have hnm : ¬ n = m := fun hc => h (by rw [hc])
        simp [modifyAt, ih n m hnm]

theorem setKind_setKind (s : NodeStore) (i : Nat) (k1 k2 : NodeKind) :
    (s.setKind i k1).setKind i k2 = s.setKind i k2 := by
  show (⟨modifyAt (fun n => ⟨k2, n.children⟩)
      (modifyAt (fun n => ⟨k1, n.children⟩) s.nodes i) i, s.rootChildren⟩ : NodeStore) = _
  rw [modifyAt_modifyAt_same]
  rfl

theorem setKind_addChild_new (s : NodeStore) (parent : Option Nat) (k k' : NodeKind) :
    (s.addChild parent k).setKind s.nodes.length k' = s.addChild parent k' := by
  cases parent with
  | none =>
    show (⟨modifyAt (fun n => ⟨k', n.children⟩) (s.nodes ++ [⟨k, []⟩]) s.nodes.length,
      s.rootChildren ++ [s.nodes.length]⟩ : NodeStore) = _
    rw [modifyAt_concat_self]
    rfl
  | some q =>
    show (⟨modifyAt (fun n => ⟨k', n.children⟩)
        (modifyAt (fun n => ⟨n.kind, n.children ++ [s.nodes.length]⟩)
          (s.nodes ++ [⟨k, []⟩]) q) s.nodes.length,
      s.rootChildren⟩ : NodeStore) = _
    by_cases hq : q = s.nodes.length
    · have hrhs : s.addChild (some q) k' =
          ⟨s.nodes ++ [⟨k', [s.nodes.length]⟩], s.rootChildren⟩ := by
        show (⟨modifyAt (fun n => ⟨n.kind, n.children ++ [s.nodes.length]⟩)
          (s.nodes ++ [⟨k', []⟩]) q, s.rootChildren⟩ : NodeStore) = _
        rw [hq, modifyAt_concat_self]
        rfl
      rw [hrhs, hq, modifyAt_modifyAt_same, modifyAt_concat_self]
      rfl
    · rw [modifyAt_comm _ _ _ q s.nodes.length hq, modifyAt_concat_self]
      rfl

theorem childListOf_setKind (s : NodeStore) (i : Nat) (k : NodeKind)
    (parent : Option Nat) :
    childListOf (s.setKind i k) parent = childListOf s parent := by
  cases parent with
  | none => rfl
  | some q =>
    show (s.setKind i k).childrenOf q = s.childrenOf q
    exact childrenOf_setKind s i k q

theorem handleText_on_fresh_text (b2 : Builder) (bs : NodeStore)
    (d1 d2 : String)
    (hst : b2.store = bs.addChild (topOf b2.stack) (.text d1))
    (hq : ∀ q, topOf b2.stack = some q → q < bs.nodes.length) :
    b2.handleText d2 = ⟨bs.addChild (topOf b2.stack) (.text (d1 ++ d2)), b2.stack⟩ := by
  have hcl : childListOf b2.store (topOf b2.stack) =
      childListOf bs (topOf b2.stack) ++ [bs.nodes.length] := by
    rw [hst]
    exact childListOf_addChild_self bs (topOf b2.stack) (.text d1) hq
  have hlast : lastElem? (childListOf b2.store (topOf b2.stack)) =
      some bs.nodes.length := by
    rw [hcl, lastElem?_concat]
  have hkind : b2.store.kindOf bs.nodes.length = some (.text d1) := by
    rw [hst, kindOf_addChild, if_pos rfl]
  rw [handleText_merge b2 d2 bs.nodes.length d1 hlast hkind, hst,
    setKind_addChild_new]

theorem step_text_text (pol : TagPolicy) (b : Builder) (hb : BInv pol b)
    (d1 d2 : String) :
    step pol (step pol b (.text d1)) (.text d2) = step pol b (.text (d1 ++ d2)) := by
  have hq : ∀ q, topOf b.stack = some q → q < b.store.nodes.length :=
    fun q h => hb.stackLt q (mem_topOf h)
  show step pol (b.handleText d1) (.text d2) = b.handleText (d1 ++ d2)
  cases hlast : lastElem? (childListOf b.store (topOf b.stack)) with
  | none =>
    rw [handleText_append_none b d1 hlast, handleText_append_none b (d1 ++ d2) hlast]
    exact handleText_on_fresh_text _ b.store d1 d2 rfl hq
  | some ci =>
    cases hko : b.store.kindOf ci with
    | some knd =>
      cases knd with
      | text old =>
        rw [handleText_merge b d1 ci old hlast hko,
          handleText_merge b (d1 ++ d2) ci old hlast hko]
        have hcl2 : ∀ parent, childListOf (b.store.setKind ci (.text (old ++ d1))) parent =
            childListOf b.store parent :=
          childListOf_setKind b.store ci (.text (old ++ d1))
        have hk2 : (b.store.setKind ci (.text (old ++ d1))).kindOf ci =
            some (.text (old ++ d1)) := by
          rw [kindOf_setKind, if_pos rfl, hko]
          rfl
        show Builder.handleText ⟨b.store.setKind ci (.text (old ++ d1)), b.stack⟩ d2 = _
        rw [handleText_merge ⟨b.store.setKind ci (.text (old ++ d1)), b.stack⟩ d2 ci
          (old ++ d1) (by rw [hcl2 (topOf b.stack)]; exact hlast) hk2]
        rw [setKind_setKind, String.append_assoc]
      | element t0 a0 =>
        have hne : ∀ old, ¬ b.store.kindOf ci = some (.text old) := fun old hc => by
          rw [hko] at hc
          simp at hc
        rw [handleText_append_other b d1 ci hlast hne,
          handleText_append_other b (d1 ++ d2) ci hlast hne]
        exact handleText_on_fresh_text _ b.store d1 d2 rfl hq
      | comment c0 =>
        have hne : ∀ old, ¬ b.store.kindOf ci = some (.text old) := fun old hc => by
          rw [hko] at hc
          simp at hc
        rw [handleText_append_other b d1 ci hlast hne,
          handleText_append_other b (d1 ++ d2) ci hlast hne]
        exact handleText_on_fresh_text _ b.store d1 d2 rfl hq
      | doctype n0 p0 s0 =>
        have hne : ∀ old, ¬ b.store.kindOf ci = some (.text old) := fun old hc => by
          rw [hko] at hc
          simp at hc
        rw [handleText_append_other b d1 ci hlast hne,
          handleText_append_other b (d1 ++ d2) ci hlast hne]
        exact handleText_on_fresh_text _ b.store d1 d2 rfl hq
    | none =>
      have hne : ∀ old, ¬ b.store.kindOf ci = some (.text old) := fun old hc => by
        rw [hko] at hc
        simp at hc
      rw [handleText_append_other b d1 ci hlast hne,
        handleText_append_other b (d1 ++ d2) ci hlast hne]
      exact handleText_on_fresh_text _ b.store d1 d2 rfl hq

theorem transGen_childEdge_lt (s : NodeStore) (he : edgesIncrease s) :
    ∀ {p c : Nat}, Relation.TransGen (childEdge s) p c → p < c := by
  intro p c h
  induction h with
  | single h1 => exact he _ _ h1
  | tail h1 h2 ih => exact Nat.lt_trans ih (he _ _ h2)

theorem stackHasTag_eq_false {s : NodeStore} {n : String} :
    ∀ {st : List Nat}, (∀ i ∈ st, ¬ s.tagOf i = some n) →
      stackHasTag s n st = false := by
  intro st
  induction st with
  | nil => intro _; rfl
  | cons top rest ih =>
    intro h
    unfold stackHasTag
    rw [ih (fun i hi => h i (List.mem_cons_of_mem _ hi))]
    cases hbeq : (s.tagOf top == some n) with
    | false => rfl
    | true =>
      exact absurd (by simpa using hbeq) (h top (by simp))

theorem run_append (pol : TagPolicy) (es es2 : List Event) :
    run pol (es ++ es2) = es2.foldl (step pol) (run pol es) := by
  unfold run
  exact List.foldl_append _ _ _ _

end BSpec

namespace BSpec

/-- Claim C1: for every finite sequence of parse events fed to the builder,
the resulting tree is acyclic — child edges strictly increase the arena
index, hence no node is a proper ancestor of itself — and every node except
the implicit document root is referenced as a child exactly once (exactly one
parent), with no dangling references. -/
theorem claim_C1_tree_acyclic_one_parent (pol : TagPolicy) (es : List Event) :
    edgesIncrease (run pol es).store ∧
    (∀ i : Nat, ¬ Relation.TransGen (childEdge (run pol es).store) i i) ∧
    oneParent (run pol es).store := by
  have hb := binv_run pol es
  refine ⟨hb.sinv.edges, ?_, hb.sinv.oneP⟩
  intro i hcontra
  exact Nat.lt_irrefl i (transGen_childEdge_lt _ hb.sinv.edges hcontra)

/-- Claim C2: an end-tag event whose tag name matches no currently open
element leaves both the tree and the InsertionStack completely unchanged —
the builder state is literally equal — and, the transition being total,
raises no error. -/
theorem claim_C2_unmatched_endtag_noop (pol : TagPolicy) (b : Builder)
    (name : String) (h : ∀ i ∈ b.stack, ¬ b.store.tagOf i = some name) :
    step pol b (.endTag name) = b := by
  show (⟨b.store, closeThrough b.store name b.stack⟩ : Builder) = b
  unfold closeThrough
  rw [stackHasTag_eq_false h]
  rfl

/-- Witness for claim C2: after opening one element a, the end-tag b matches
nothing open and the step is a literal no-op. -/
theorem claim_C2_witness :
    (∀ i ∈ (run testPolicy [Event.startTag "a" []]).stack,
      ¬ (run testPolicy [Event.startTag "a" []]).store.tagOf i = some "b") ∧
    step testPolicy (run testPolicy [Event.startTag "a" []]) (Event.endTag "b") =
      run testPolicy [Event.startTag "a" []] :=
  ⟨by decide, claim_C2_unmatched_endtag_noop testPolicy
    (run testPolicy [Event.startTag "a" []]) "b" (by decide)⟩

/-- Claim C3: after any event sequence no two adjacent sibling children of
any node (or of the document root) are both Text nodes, and processing two
consecutive text events is the same transition as processing their
concatenation once — the second run is merged into the first, not appended
as a second node. -/
theorem claim_C3_no_adjacent_text_siblings (pol : TagPolicy) (es : List Event)
    (d1 d2 : String) :
    storeNoAdjTexts (run pol es).store ∧
    step pol (step pol (run pol es) (.text d1)) (.text d2) =
      step pol (run pol es) (.text (d1 ++ d2)) := by
  have hb := binv_run pol es
  exact ⟨⟨hb.sinv.adjRoot, hb.sinv.adjChild⟩, step_text_text pol _ hb d1 d2⟩

/-- Claim C4: void-tagged elements are appended to the tree (the start-tag
always allocates the element node) but never appear on the InsertionStack —
every stacked node is a non-void element — and never acquire children, over
every event sequence, hence also when the void start-tag is immediately
followed by text or start-tag events. -/
theorem claim_C4_void_elements (pol : TagPolicy) (es : List Event) :
    (∀ i ∈ (run pol es).stack, ∃ t a, (run pol es).store.kindOf i =
      some (.element t a) ∧ pol.isVoid t = false) ∧
    (∀ i t a, (run pol es).store.kindOf i = some (.element t a) →
      pol.isVoid t = true → (run pol es).store.childrenOf i = []) ∧
    (∀ n a, (run pol (es ++ [.startTag n a])).store.kindOf
      (run pol es).store.nodes.length = some (.element n a)) := by
  have hb := binv_run pol es
  refine ⟨hb.stackElem, hb.sinv.voidEmpty, ?_⟩
  intro n a
  rw [run_append]
  show ((run pol es).store.addChild
    (topOf (popImplied pol (run pol es).store n (run pol es).stack))
    (.element n a)).kindOf (run pol es).store.nodes.length = _
  rw [kindOf_addChild, if_pos rfl]

/-- Claim C6: a comment event appends exactly one fresh Comment node, linked
only under the current open element, and leaves the InsertionStack — its
contents and hence its depth — unchanged; every other node keeps its kind,
children and the root child list. -/
theorem claim_C6_comment_is_framed (pol : TagPolicy) (b : Builder) (d : String)
    (p : Nat) (h1 : topOf b.stack = some p) (h2 : p < b.store.nodes.length) :
    (step pol b (.comment d)).stack = b.stack ∧
    (step pol b (.comment d)).store.nodes.length = b.store.nodes.length + 1 ∧
    (step pol b (.comment d)).store.kindOf b.store.nodes.length =
      some (.comment d) ∧
    (step pol b (.comment d)).store.childrenOf p =
      b.store.childrenOf p ++ [b.store.nodes.length] ∧
    (∀ q : Nat, ¬ q = p →
      (step pol b (.comment d)).store.childrenOf q = b.store.childrenOf q) ∧
    (∀ i, i < b.store.nodes.length →
      (step pol b (.comment d)).store.kindOf i = b.store.kindOf i) ∧
    (step pol b (.comment d)).store.rootChildren = b.store.rootChildren := by
  refine ⟨rfl, ?_, ?_, ?_, ?_, ?_, ?_⟩
  · show (b.store.addChild (topOf b.stack) (.comment d)).nodes.length = _
    rw [length_addChild]
  · show (b.store.addChild (topOf b.stack) (.comment d)).kindOf _ = _
    rw [kindOf_addChild, if_pos rfl]
  · show (b.store.addChild (topOf b.stack) (.comment d)).childrenOf p = _
    rw [h1, childrenOf_addChild_some b.store p _ p h2, if_pos rfl]
  · intro q hqp
    show (b.store.addChild (topOf b.stack) (.comment d)).childrenOf q = _
    rw [h1, childrenOf_addChild_some b.store p _ q h2, if_neg hqp]
  · intro i hi
    show (b.store.addChild (topOf b.stack) (.comment d)).kindOf i = _
    rw [kindOf_addChild, if_neg (Nat.ne_of_lt hi)]
  · show (b.store.addChild (topOf b.stack) (.comment d)).rootChildren = _
    rw [h1]
    rfl

/-- Witness for claim C6: a comment inside one open element a. -/
theorem claim_C6_witness :
    topOf (run testPolicy [Event.startTag "a" []]).stack = some 0 ∧
    0 < (run testPolicy [Event.startTag "a" []]).store.nodes.length ∧
    ((step testPolicy (run testPolicy [Event.startTag "a" []])
        (Event.comment "note")).stack =
      (run testPolicy [Event.startTag "a" []]).stack ∧
    (step testPolicy (run testPolicy [Event.startTag "a" []])
        (Event.comment "note")).store.nodes.length =
      (run testPolicy [Event.startTag "a" []]).store.nodes.length + 1 ∧
    (step testPolicy (run testPolicy [Event.startTag "a" []])
        (Event.comment "note")).store.kindOf
        (run testPolicy [Event.startTag "a" []]).store.nodes.length =
      some (.comment "note") ∧
    (step testPolicy (run testPolicy [Event.startTag "a" []])
        (Event.comment "note")).store.childrenOf 0 =
      (run testPolicy [Event.startTag "a" []]).store.childrenOf 0 ++
        [(run testPolicy [Event.startTag "a" []]).store.nodes.length] ∧
    (∀ q : Nat, ¬ q = 0 →
      (step testPolicy (run testPolicy [Event.startTag "a" []])
          (Event.comment "note")).store.childrenOf q =
        (run testPolicy [Event.startTag "a" []]).store.childrenOf q) ∧
    (∀ i, i < (run testPolicy [Event.startTag "a" []]).store.nodes.length →
      (step testPolicy (run testPolicy [Event.startTag "a" []])
          (Event.comment "note")).store.kindOf i =
        (run testPolicy [Event.startTag "a" []]).store.kindOf i) ∧
    (step testPolicy (run testPolicy [Event.startTag "a" []])
        (Event.comment "note")).store.rootChildren =
      (run testPolicy [Event.startTag "a" []]).store.rootChildren) :=
  ⟨by decide, by decide, claim_C6_comment_is_framed testPolicy
    (run testPolicy [Event.startTag "a" []]) "note" 0 (by decide) (by decide)⟩

/-- Claim C7: every doctype event, at any position — in particular for an
arbitrary builder state, including one in which elements are already open —
appends a Doctype node as a child of the document root and changes nothing
else; the transition is total, so no doctype is ever rejected. -/
theorem claim_C7_doctype_appended_to_root (pol : TagPolicy) (b : Builder)
    (n pu sy : String) :
    (step pol b (.doctype n pu sy)).stack = b.stack ∧
    (step pol b (.doctype n pu sy)).store.nodes =
      b.store.nodes ++ [⟨.doctype n pu sy, []⟩] ∧
    (step pol b (.doctype n pu sy)).store.rootChildren =
      b.store.rootChildren ++ [b.store.nodes.length] :=
  ⟨rfl, rfl, rfl⟩

end BSpec

namespace BS4CSS

/-- Claim C8: constructing a CSS object with api None while the soupsieve
module import failed (module value None) raises NotImplementedError; when a
non-None api is supplied, or soupsieve is available and api is None,
construction succeeds and stores the chosen api together with the tag. -/
theorem claim_C8_init_requires_some_api (ss : Option SoupSieveApi) (tag : Tag)
    (api : SoupSieveApi) :
    CSS.init none tag none = .error (.notImplementedError
      "Cannot execute CSS selectors because the soupsieve package is not installed.") ∧
    CSS.init ss tag (some api) = .ok ⟨api, tag⟩ ∧
    CSS.init (some api) tag none = .ok ⟨api, tag⟩ :=
  ⟨rfl, rfl, rfl⟩

/-- Claim C9: CSS.escape tests the module-level soupsieve import rather than
the stored api — an object constructed with a substitute api while soupsieve
is absent raises NotImplementedError from escape instead of delegating to
api.escape, although construction succeeds and every other method of the
object delegates to the substitute api. -/
theorem claim_C9_escape_tests_module_import (api : SoupSieveApi) (tag : Tag)
    (ident : String) (sel : Selector) (ns : Option (List (String × String)))
    (limit : Option Nat) (flags : Nat) :
    CSS.init none tag (some api) = .ok ⟨api, tag⟩ ∧
    CSS.escape none ⟨api, tag⟩ ident = .error (.notImplementedError
      "Cannot escape CSS identifiers because the soupsieve package is not installed.") ∧
    CSS.select ⟨api, tag⟩ sel ns limit flags =
      CSS.rs (api.select sel tag (CSS.ns ⟨api, tag⟩ ns sel)
        (some (limit.getD 0)) flags) ∧
    CSS.selectOne ⟨api, tag⟩ sel ns flags =
      api.selectOne sel tag (CSS.ns ⟨api, tag⟩ ns sel) flags ∧
    CSS.matchSelector ⟨api, tag⟩ sel ns flags =
      api.matchSel sel tag (CSS.ns ⟨api, tag⟩ ns sel) flags ∧
    CSS.filterSel ⟨api, tag⟩ sel ns flags =
      CSS.rs (api.filter sel tag (CSS.ns ⟨api, tag⟩ ns sel) flags) ∧
    CSS.closest ⟨api, tag⟩ sel ns flags =
      api.closest sel tag (CSS.ns ⟨api, tag⟩ ns sel) flags ∧
    CSS.iselect ⟨api, tag⟩ sel ns limit flags =
      api.iselect sel tag (CSS.ns ⟨api, tag⟩ ns sel) limit flags ∧
    CSS.compileSel ⟨api, tag⟩ sel ns flags =
      api.compile sel (CSS.ns ⟨api, tag⟩ ns sel) flags := by
  refine ⟨rfl, rfl, ?_, rfl, rfl, rfl, rfl, rfl, rfl⟩
  cases limit <;> rfl

/-- Claim C10: CSS.select with limit None behaves identically to limit 0 —
the None is normalized to 0 before delegating — and for every limit argument
the value handed to the underlying api.select is some concrete number, never
None. -/
theorem claim_C10_select_limit_none_is_zero (c : CSS) (sel : Selector)
    (ns : Option (List (String × String))) (limit : Option Nat) (flags : Nat) :
    CSS.select c sel ns none flags = CSS.select c sel ns (some 0) flags ∧
    CSS.select c sel ns limit flags =
      CSS.rs (c.api.select sel c.tag (CSS.ns c ns sel)
        (some (limit.getD 0)) flags) := by
  refine ⟨rfl, ?_⟩
  cases limit <;> rfl

end BS4CSS

namespace BSpec

theorem sizeT_pos (t : ETree) : 1 ≤ sizeT t := by
  cases t with
  | elem n a c => exact Nat.le_add_right 1 (sizeF c)
  | txt d => exact Nat.le_refl 1
  | com d => exact Nat.le_refl 1

mutual
theorem length_appendTree (t : ETree) (s : NodeStore) (p : Option Nat) :
    (appendTree s p t).nodes.length = s.nodes.length + sizeT t := by
  cases t with
  | elem n a c =>
    show (appendForest (s.addChild p (.element n a))
      (some s.nodes.length) c).nodes.length = _
    rw [length_appendForest c (s.addChild p (.element n a)) (some s.nodes.length),
      length_addChild]
    show s.nodes.length + 1 + sizeF c = s.nodes.length + (1 + sizeF c)
    omega
  | txt d =>
    show (s.addChild p (.text d)).nodes.length = _
    rw [length_addChild]
    rfl
  | com d =>
    show (s.addChild p (.comment d)).nodes.length = _
    rw [length_addChild]
    rfl
theorem length_appendForest (f : EForest) (s : NodeStore) (p : Option Nat) :
    (appendForest s p f).nodes.length = s.nodes.length + sizeF f := by
  cases f with
  | nil => rfl
  | cons t f2 =>
    show (appendForest (appendTree s p t) p f2).nodes.length = _
    rw [length_appendForest f2 (appendTree s p t) p, length_appendTree t s p]
    show s.nodes.length + sizeT t + sizeF f2 = s.nodes.length + (sizeT t + sizeF f2)
    omega
end

mutual
theorem kindOf_appendTree (t : ETree) (s : NodeStore) (p : Option Nat) (i : Nat)
    (hi : i < s.nodes.length) : (appendTree s p t).kindOf i = s.kindOf i := by
  cases t with
  | elem n a c =>
    show (appendForest (s.addChild p (.element n a))
      (some s.nodes.length) c).kindOf i = _
    rw [kindOf_appendForest c (s.addChild p (.element n a)) (some s.nodes.length) i
      (by rw [length_addChild]; omega), kindOf_addChild, if_neg (Nat.ne_of_lt hi)]
  | txt d =>
    show (s.addChild p (.text d)).kindOf i = _
    rw [kindOf_addChild, if_neg (Nat.ne_of_lt hi)]
  | com d =>
    show (s.addChild p (.comment d)).kindOf i = _
    rw [kindOf_addChild, if_neg (Nat.ne_of_lt hi)]
theorem kindOf_appendForest (f : EForest) (s : NodeStore) (p : Option Nat) (i : Nat)
    (hi : i < s.nodes.length) : (appendForest s p f).kindOf i = s.kindOf i := by
  cases f with
  | nil => rfl
  | cons t f2 =>
    show (appendForest (appendTree s p t) p f2).kindOf i = _
    rw [kindOf_appendForest f2 (appendTree s p t) p i
      (by rw [length_appendTree]; omega), kindOf_appendTree t s p i hi]
end

mutual
theorem childrenOf_appendTree_other (t : ETree) (s : NodeStore) (p : Option Nat)
    (i : Nat) (hi : i < s.nodes.length)
    (hp : ∀ q, p = some q → q < s.nodes.length ∧ ¬ i = q) :
    (appendTree s p t).childrenOf i = s.childrenOf i := by
  cases t with
  | elem n a c =>
    show (appendForest (s.addChild p (.element n a))
      (some s.nodes.length) c).childrenOf i = _
    rw [childrenOf_appendForest_other c (s.addChild p (.element n a))
      (some s.nodes.length) i (by rw [length_addChild]; omega)
      (by
        intro q2 hq2
        injection hq2 with h
        constructor
        · rw [← h, length_addChild]
          omega
        · omega)]
    cases p with
    | none => exact childrenOf_addChild_none s _ i
    | some q =>
      rw [childrenOf_addChild_some s q _ i (hp q rfl).1, if_neg (hp q rfl).2]
  | txt d =>
    show (s.addChild p (.text d)).childrenOf i = _
    cases p with
    | none => exact childrenOf_addChild_none s _ i
    | some q =>
      rw [childrenOf_addChild_some s q _ i (hp q rfl).1, if_neg (hp q rfl).2]
  | com d =>
    show (s.addChild p (.comment d)).childrenOf i = _
    cases p with
    | none => exact childrenOf_addChild_none s _ i
    | some q =>
      rw [childrenOf_addChild_some s q _ i (hp q rfl).1, if_neg (hp q rfl).2]
theorem childrenOf_appendForest_other (f : EForest) (s : NodeStore) (p : Option Nat)
    (i : Nat) (hi : i < s.nodes.length)
    (hp : ∀ q, p = some q → q < s.nodes.length ∧ ¬ i = q) :
    (appendForest s p f).childrenOf i = s.childrenOf i := by
  cases f with
  | nil => rfl
  | cons t f2 =>
    show (appendForest (appendTree s p t) p f2).childrenOf i = _
    rw [childrenOf_appendForest_other f2 (appendTree s p t) p i
      (by rw [length_appendTree]; omega)
      (by
        intro q hq
        obtain ⟨h1, h2⟩ := hp q hq
        exact ⟨by rw [length_appendTree]; omega, h2⟩),
      childrenOf_appendTree_other t s p i hi hp]
end

mutual
theorem rootChildren_appendTree_some (t : ETree) (s : NodeStore) (q : Nat) :
    (appendTree s (some q) t).rootChildren = s.rootChildren := by
  cases t with
  | elem n a c =>
    show (appendForest (s.addChild (some q) (.element n a))
      (some s.nodes.length) c).rootChildren = _
    rw [rootChildren_appendForest_some c (s.addChild (some q) (.element n a))
      s.nodes.length]
    rfl
  | txt d => rfl
  | com d => rfl
theorem rootChildren_appendForest_some (f : EForest) (s : NodeStore) (q : Nat) :
    (appendForest s (some q) f).rootChildren = s.rootChildren := by
  cases f with
  | nil => rfl
  | cons t f2 =>
    show (appendForest (appendTree s (some q) t) (some q) f2).rootChildren = _
    rw [rootChildren_appendForest_some f2 (appendTree s (some q) t) q,
      rootChildren_appendTree_some t s q]
end

theorem childrenOf_appendTree_parent (t : ETree) (s : NodeStore) (q : Nat)
    (hq : q < s.nodes.length) :
    (appendTree s (some q) t).childrenOf q = s.childrenOf q ++ [s.nodes.length] := by
  cases t with
  | elem n a c =>
    show (appendForest (s.addChild (some q) (.element n a))
      (some s.nodes.length) c).childrenOf q = _
    rw [childrenOf_appendForest_other c (s.addChild (some q) (.element n a))
      (some s.nodes.length) q (by rw [length_addChild]; omega)
      (by
        intro q2 hq2
        injection hq2 with h
        constructor
        · rw [← h, length_addChild]
          omega
        · omega),
      childrenOf_addChild_some s q _ q hq, if_pos rfl]
  | txt d =>
    show (s.addChild (some q) (.text d)).childrenOf q = _
    rw [childrenOf_addChild_some s q _ q hq, if_pos rfl]
  | com d =>
    show (s.addChild (some q) (.comment d)).childrenOf q = _
    rw [childrenOf_addChild_some s q _ q hq, if_pos rfl]

theorem childrenOf_appendForest_parent (f : EForest) (q : Nat) :
    ∀ (s : NodeStore), q < s.nodes.length →
      (appendForest s (some q) f).childrenOf q =
        s.childrenOf q ++ rootIdxs s.nodes.length f := by
  cases f with
  | nil =>
    intro s _
    show s.childrenOf q = s.childrenOf q ++ []
    rw [List.append_nil]
  | cons t f2 =>
    intro s hq
    show (appendForest (appendTree s (some q) t) (some q) f2).childrenOf q = _
    rw [childrenOf_appendForest_parent f2 q (appendTree s (some q) t)
        (by rw [length_appendTree]; omega),
      childrenOf_appendTree_parent t s q hq, length_appendTree, List.append_assoc]
    rfl

theorem rootChildren_appendTree_none (t : ETree) (s : NodeStore) :
    (appendTree s none t).rootChildren = s.rootChildren ++ [s.nodes.length] := by
  cases t with
  | elem n a c =>
    show (appendForest (s.addChild none (.element n a))
      (some s.nodes.length) c).rootChildren = _
    rw [rootChildren_appendForest_some c (s.addChild none (.element n a))
      s.nodes.length]
    rfl
  | txt d => rfl
  | com d => rfl

theorem rootChildren_appendForest_none (f : EForest) :
    ∀ (s : NodeStore), (appendForest s none f).rootChildren =
      s.rootChildren ++ rootIdxs s.nodes.length f := by
  cases f with
  | nil =>
    intro s
    show s.rootChildren = s.rootChildren ++ []
    rw [List.append_nil]
  | cons t f2 =>
    intro s
    show (appendForest (appendTree s none t) none f2).rootChildren = _
    rw [rootChildren_appendForest_none f2 (appendTree s none t),
      rootChildren_appendTree_none t s, length_appendTree, List.append_assoc]
    rfl

theorem tagOf_eq_of_kind {s : NodeStore} {i : Nat} {t : String}
    {a : List (String × String)} (h : s.kindOf i = some (.element t a)) :
    s.tagOf i = some t := by
  unfold NodeStore.tagOf
  rw [h]

theorem tagOf_appendTree (t : ETree) (s : NodeStore) (p : Option Nat) (i : Nat)
    (hi : i < s.nodes.length) : (appendTree s p t).tagOf i = s.tagOf i := by
  unfold NodeStore.tagOf
  rw [kindOf_appendTree t s p i hi]

end BSpec

namespace BSpec

theorem childListOf_appendTree_self (t : ETree) (s : NodeStore) (parent : Option Nat)
    (hp : ∀ q, parent = some q → q < s.nodes.length) :
    childListOf (appendTree s parent t) parent =
      childListOf s parent ++ [s.nodes.length] := by
  cases parent with
  | none =>
    show (appendTree s none t).rootChildren = s.rootChildren ++ [s.nodes.length]
    exact rootChildren_appendTree_none t s
  | some q =>
    show (appendTree s (some q) t).childrenOf q = s.childrenOf q ++ [s.nodes.length]
    exact childrenOf_appendTree_parent t s q (hp q rfl)

theorem isTextNode_appendTree_new (t : ETree) (s : NodeStore) (parent : Option Nat) :
    isTextNode (appendTree s parent t) s.nodes.length = isTxtTree t := by
  cases t with
  | elem n a c =>
    have hk : (appendTree s parent (.elem n a c)).kindOf s.nodes.length =
        some (.element n a) := by
      show (appendForest (s.addChild parent (.element n a))
        (some s.nodes.length) c).kindOf s.nodes.length = _
      rw [kindOf_appendForest c _ _ _ (by rw [length_addChild]; omega),
        kindOf_addChild, if_pos rfl]
    rw [isTextNode_eq_of_kind hk]
    rfl
  | txt d =>
    have hk : (appendTree s parent (.txt d)).kindOf s.nodes.length =
        some (.text d) := by
      show (s.addChild parent (.text d)).kindOf s.nodes.length = _
      rw [kindOf_addChild, if_pos rfl]
    rw [isTextNode_eq_of_kind hk]
    rfl
  | com d =>
    have hk : (appendTree s parent (.com d)).kindOf s.nodes.length =
        some (.comment d) := by
      show (s.addChild parent (.comment d)).kindOf s.nodes.length = _
      rw [kindOf_addChild, if_pos rfl]
    rw [isTextNode_eq_of_kind hk]
    rfl

theorem lastChildText_appendTree (t : ETree) (s : NodeStore) (parent : Option Nat)
    (hp : ∀ q, parent = some q → q < s.nodes.length) :
    lastChildText (appendTree s parent t) parent = isTxtTree t := by
  unfold lastChildText
  rw [childListOf_appendTree_self t s parent hp, lastElem?_concat]
  exact isTextNode_appendTree_new t s parent

theorem range_addChild (s : NodeStore) (p : Option Nat) (k : NodeKind) (lo : Nat)
    (hlo : lo ≤ s.nodes.length)
    (hcl : ∀ j, lo ≤ j → j < s.nodes.length →
      ∀ c ∈ s.childrenOf j, lo ≤ c ∧ c < s.nodes.length)
    (hp : ∀ q, p = some q → q < s.nodes.length) :
    ∀ j, lo ≤ j → j < (s.addChild p k).nodes.length →
      ∀ c ∈ (s.addChild p k).childrenOf j,
        lo ≤ c ∧ c < (s.addChild p k).nodes.length := by
  intro j hj1 hj2 c2 hc2
  have hlen1 : (s.addChild p k).nodes.length = s.nodes.length + 1 :=
    length_addChild s p k
  rw [hlen1] at hj2
  by_cases hj : j < s.nodes.length
  · cases p with
    | none =>
      rw [childrenOf_addChild_none] at hc2
      obtain ⟨h1, h2⟩ := hcl j hj1 hj c2 hc2
      exact ⟨h1, by rw [hlen1]; omega⟩
    | some q =>
      rw [childrenOf_addChild_some s q _ j (hp q rfl)] at hc2
      by_cases hjq : j = q
      · rw [if_pos hjq] at hc2
        rcases List.mem_append.mp hc2 with h | h
        · obtain ⟨h1, h2⟩ := hcl j hj1 hj c2 h
          exact ⟨h1, by rw [hlen1]; omega⟩
        · have hce : c2 = s.nodes.length := by simpa using h
          exact ⟨by omega, by rw [hlen1]; omega⟩
      · rw [if_neg hjq] at hc2
        obtain ⟨h1, h2⟩ := hcl j hj1 hj c2 hc2
        exact ⟨h1, by rw [hlen1]; omega⟩
  · have hj' : j = s.nodes.length := by omega
    have hch : (s.addChild p k).childrenOf j = [] := by
      cases p with
      | none =>
        rw [childrenOf_addChild_none, hj']
        exact childrenOf_length_self s
      | some q =>
        rw [childrenOf_addChild_some s q _ j (hp q rfl),
          if_neg (by have := hp q rfl; omega), hj']
        exact childrenOf_length_self s
    rw [hch] at hc2
    simp at hc2

mutual
theorem range_appendTree (t : ETree) (s : NodeStore) (p : Option Nat) (lo : Nat)
    (hlo : lo ≤ s.nodes.length)
    (hcl : ∀ j, lo ≤ j → j < s.nodes.length →
      ∀ c ∈ s.childrenOf j, lo ≤ c ∧ c < s.nodes.length)
    (hp : ∀ q, p = some q → q < s.nodes.length) :
    ∀ j, lo ≤ j → j < (appendTree s p t).nodes.length →
      ∀ c ∈ (appendTree s p t).childrenOf j,
        lo ≤ c ∧ c < (appendTree s p t).nodes.length := by
  cases t with
  | elem n a c =>
    show ∀ j, lo ≤ j →
      j < (appendForest (s.addChild p (.element n a))
        (some s.nodes.length) c).nodes.length → _
    refine range_appendForest c (s.addChild p (.element n a)) (some s.nodes.length)
      lo (by rw [length_addChild]; omega)
      (range_addChild s p (.element n a) lo hlo hcl hp) ?_
    intro q hq
    injection hq with h
    rw [← h, length_addChild]
    omega
  | txt d => exact range_addChild s p (.text d) lo hlo hcl hp
  | com d => exact range_addChild s p (.comment d) lo hlo hcl hp
theorem range_appendForest (f : EForest) (s : NodeStore) (p : Option Nat) (lo : Nat)
    (hlo : lo ≤ s.nodes.length)
    (hcl : ∀ j, lo ≤ j → j < s.nodes.length →
      ∀ c ∈ s.childrenOf j, lo ≤ c ∧ c < s.nodes.length)
    (hp : ∀ q, p = some q → q < s.nodes.length) :
    ∀ j, lo ≤ j → j < (appendForest s p f).nodes.length →
      ∀ c ∈ (appendForest s p f).childrenOf j,
        lo ≤ c ∧ c < (appendForest s p f).nodes.length := by
  cases f with
  | nil => exact hcl
  | cons t f2 =>
    refine range_appendForest f2 (appendTree s p t) p lo
      (by rw [length_appendTree]; omega)
      (range_appendTree t s p lo hlo hcl hp) ?_
    intro q hq
    rw [length_appendTree]
    have := hp q hq
    omega
end

theorem map_congr_mem {α β : Type} {l : List α} {g1 g2 : α → β}
    (h : ∀ x ∈ l, g1 x = g2 x) : l.map g1 = l.map g2 := by
  induction l with
  | nil => rfl
  | cons x xs ih =>
    rw [List.map_cons, List.map_cons, h x (by simp),
      ih (fun y hy => h y (List.mem_cons_of_mem _ hy))]

theorem nodeToTree_congr (lo : Nat) : ∀ (fuel : Nat) (s s2 : NodeStore) (i : Nat),
    (∀ j, j < s.nodes.length → s2.kindOf j = s.kindOf j) →
    (∀ j, lo ≤ j → j < s.nodes.length → s2.childrenOf j = s.childrenOf j) →
    (∀ j, lo ≤ j → j < s.nodes.length →
      ∀ c ∈ s.childrenOf j, lo ≤ c ∧ c < s.nodes.length) →
    lo ≤ i → i < s.nodes.length →
    nodeToTree s2 fuel i = nodeToTree s fuel i := by
  intro fuel
  induction fuel with
  | zero => intro s s2 i _ _ _ _ _; rfl
  | succ fu ih =>
    intro s s2 i hk hc hcl hi1 hi2
    show nodeToTree s2 (fu + 1) i = nodeToTree s (fu + 1) i
    simp only [nodeToTree]
    rw [hk i hi2]
    cases hki : s.kindOf i with
    | none => rfl
    | some k =>
      cases k with
      | element t a =>
        show ETree.elem t a (forestOfList ((s2.childrenOf i).map (nodeToTree s2 fu))) =
          ETree.elem t a (forestOfList ((s.childrenOf i).map (nodeToTree s fu)))
        rw [hc i hi1 hi2]
        rw [map_congr_mem (fun c hcm =>
          ih s s2 c hk hc hcl (hcl i hi1 hi2 c hcm).1 (hcl i hi1 hi2 c hcm).2)]
      | text d => rfl
      | comment d => rfl
      | doctype n2 p2 s3 => rfl

mutual
theorem depthT_le_sizeT (t : ETree) : depthT t ≤ sizeT t := by
  cases t with
  | elem n a c =>
    show depthF c + 1 ≤ 1 + sizeF c
    have h := depthF_le_sizeF c
    omega
  | txt d => exact Nat.le_refl 1
  | com d => exact Nat.le_refl 1
theorem depthF_le_sizeF (f : EForest) : depthF f ≤ sizeF f := by
  cases f with
  | nil => exact Nat.le_refl 0
  | cons t f2 =>
    show max (depthT t) (depthF f2) ≤ sizeT t + sizeF f2
    have h1 := depthT_le_sizeT t
    have h2 := depthF_le_sizeF f2
    exact max_le (Nat.le_trans h1 (Nat.le_add_right _ _))
      (Nat.le_trans h2 (Nat.le_add_left _ _))
end

end BSpec

namespace BSpec

mutual
theorem decode_appendTree (t : ETree) (s : NodeStore) (p : Option Nat) (fuel : Nat)
    (hp : ∀ q, p = some q → q < s.nodes.length) (hfu : depthT t ≤ fuel) :
    nodeToTree (appendTree s p t) fuel s.nodes.length = t := by
  cases t with
  | elem n a c =>
    cases fuel with
    | zero => exact absurd (show depthF c + 1 ≤ 0 from hfu) (by omega)
    | succ fu =>
      have hfu2 : depthF c ≤ fu := by
        have h2 : depthF c + 1 ≤ fu + 1 := hfu
        omega
      have hkind : (appendTree s p (.elem n a c)).kindOf s.nodes.length =
          some (.element n a) := by
        show (appendForest (s.addChild p (.element n a))
          (some s.nodes.length) c).kindOf s.nodes.length = _
        rw [kindOf_appendForest c _ _ _ (by rw [length_addChild]; omega),
          kindOf_addChild, if_pos rfl]
      have hch : (appendTree s p (.elem n a c)).childrenOf s.nodes.length =
          rootIdxs (s.addChild p (.element n a)).nodes.length c := by
        show (appendForest (s.addChild p (.element n a))
          (some s.nodes.length) c).childrenOf s.nodes.length = _
        rw [childrenOf_appendForest_parent c s.nodes.length
          (s.addChild p (.element n a)) (by rw [length_addChild]; omega)]
        have h0 : (s.addChild p (.element n a)).childrenOf s.nodes.length = [] := by
          cases p with
          | none =>
            rw [childrenOf_addChild_none]
            exact childrenOf_length_self s
          | some q =>
            rw [childrenOf_addChild_some s q _ _ (hp q rfl),
              if_neg (by have := hp q rfl; omega)]
            exact childrenOf_length_self s
        rw [h0, List.nil_append]
      simp only [nodeToTree, hkind, hch]
      show ETree.elem n a (forestOfList
        ((rootIdxs (s.addChild p (.element n a)).nodes.length c).map
          (nodeToTree (appendForest (s.addChild p (.element n a))
            (some s.nodes.length) c) fu))) = ETree.elem n a c
      rw [decode_appendForest c (s.addChild p (.element n a)) (some s.nodes.length) fu
        (by
          intro q hq
          injection hq with h
          rw [← h, length_addChild]
          omega) hfu2]
  | txt d =>
    cases fuel with
    | zero => exact absurd (show 1 ≤ 0 from hfu) (by omega)
    | succ fu =>
      have hkind : (appendTree s p (.txt d)).kindOf s.nodes.length =
          some (.text d) := by
        show (s.addChild p (.text d)).kindOf s.nodes.length = _
        rw [kindOf_addChild, if_pos rfl]
      simp only [nodeToTree, hkind]
  | com d =>
    cases fuel with
    | zero => exact absurd (show 1 ≤ 0 from hfu) (by omega)
    | succ fu =>
      have hkind : (appendTree s p (.com d)).kindOf s.nodes.length =
          some (.comment d) := by
        show (s.addChild p (.comment d)).kindOf s.nodes.length = _
        rw [kindOf_addChild, if_pos rfl]
      simp only [nodeToTree, hkind]
theorem decode_appendForest (f : EForest) (s : NodeStore) (p : Option Nat) (fuel : Nat)
    (hp : ∀ q, p = some q → q < s.nodes.length) (hfu : depthF f ≤ fuel) :
    forestOfList ((rootIdxs s.nodes.length f).map
      (nodeToTree (appendForest s p f) fuel)) = f := by
  cases f with
  | nil => rfl
  | cons t f2 =>
    have hfu0 : max (depthT t) (depthF f2) ≤ fuel := hfu
    have hfu1 : depthT t ≤ fuel := Nat.le_trans (Nat.le_max_left _ _) hfu0
    have hfu2 : depthF f2 ≤ fuel := Nat.le_trans (Nat.le_max_right _ _) hfu0
    show forestOfList ((s.nodes.length :: rootIdxs (s.nodes.length + sizeT t) f2).map
      (nodeToTree (appendForest (appendTree s p t) p f2) fuel)) = EForest.cons t f2
    rw [List.map_cons]
    show EForest.cons
      (nodeToTree (appendForest (appendTree s p t) p f2) fuel s.nodes.length)
      (forestOfList ((rootIdxs (s.nodes.length + sizeT t) f2).map
        (nodeToTree (appendForest (appendTree s p t) p f2) fuel))) = _
    rw [show s.nodes.length + sizeT t = (appendTree s p t).nodes.length from
      (length_appendTree t s p).symm]
    rw [decode_appendForest f2 (appendTree s p t) p fuel
      (fun q hq => by
        rw [length_appendTree]
        have := hp q hq
        omega) hfu2]
    have hstab : nodeToTree (appendForest (appendTree s p t) p f2) fuel
        s.nodes.length = nodeToTree (appendTree s p t) fuel s.nodes.length := by
      refine nodeToTree_congr s.nodes.length fuel (appendTree s p t) _
        s.nodes.length ?_ ?_ ?_ ?_ ?_
      · intro j hj
        exact kindOf_appendForest f2 _ p j hj
      · intro j hj1 hj2
        refine childrenOf_appendForest_other f2 _ p j hj2 ?_
        intro q hq
        constructor
        · rw [length_appendTree]
          have := hp q hq
          omega
        · have := hp q hq
          omega
      · refine range_appendTree t s p s.nodes.length (Nat.le_refl _) ?_ hp
        intro j hj1 hj2
        intro c hcm
        omega
      · exact Nat.le_refl _
      · rw [length_appendTree]
        have := sizeT_pos t
        omega
    rw [hstab, decode_appendTree t s p fuel hp hfu1]
end

end BSpec

namespace BSpec

theorem lastChildText_of_empty (s : NodeStore) (p : Nat) (h : s.childrenOf p = []) :
    lastChildText s (some p) = false := by
  have h2 : childListOf s (some p) = [] := h
  unfold lastChildText
  rw [h2]
  rfl

mutual
theorem sim_tree (t : ETree) (pol : TagPolicy) (pname : Option String) (b : Builder)
    (hg : goodTree pol t = true)
    (hclose : rootCloseOk pol pname t = true)
    (hlt : ∀ i ∈ b.stack, i < b.store.nodes.length)
    (hname : (topOf b.stack = none ∧ pname = none) ∨
      (∃ p pn, topOf b.stack = some p ∧ pname = some pn ∧
        b.store.tagOf p = some pn))
    (htxt : lastChildText b.store (topOf b.stack) = true → isTxtTree t = false) :
    List.foldl (step pol) b (eventsOfTree t) =
      ⟨appendTree b.store (topOf b.stack) t, b.stack⟩ := by
  cases t with
  | elem n a c =>
    have hg2 : pol.isVoid n = false ∧ goodForest pol (some n) c = true := by
      have hg' : (!pol.isVoid n && goodForest pol (some n) c) = true := hg
      rw [Bool.and_eq_true, Bool.not_eq_true'] at hg'
      exact hg'
    have hvoid := hg2.1
    have hgf := hg2.2
    have hpop : popImplied pol b.store n b.stack = b.stack := by
      cases hstk : b.stack with
      | nil => rfl
      | cons p rest =>
        rcases hname with ⟨h1, _⟩ | ⟨p', pn, hp', hpn, htag⟩
        · rw [hstk] at h1
          exact absurd h1 (by simp [topOf])
        · rw [hstk] at hp'
          have h5 : (some p : Option Nat) = some p' := hp'
          injection h5 with h6
          have hcl : pol.closes n pn = false := by
            rw [hpn] at hclose
            have hclose' : (!pol.closes n pn) = true := hclose
            rw [Bool.not_eq_true'] at hclose'
            exact hclose'
          have htagp : b.store.tagOf p = some pn := by
            rw [h6]
            exact htag
          unfold popImplied
          simp [htagp, hcl]
    have hstep1 : step pol b (.startTag n a) =
        ⟨b.store.addChild (topOf b.stack) (.element n a),
          b.store.nodes.length :: b.stack⟩ := by
      show (⟨b.store.addChild (topOf (popImplied pol b.store n b.stack)) (.element n a),
        if pol.isVoid n = true then popImplied pol b.store n b.stack
        else b.store.nodes.length :: popImplied pol b.store n b.stack⟩ : Builder) = _
      rw [hpop, hvoid]
      rfl
    have hlt1 : ∀ i ∈ (b.store.nodes.length :: b.stack),
        i < (b.store.addChild (topOf b.stack) (.element n a)).nodes.length := by
      intro i hi
      rw [length_addChild]
      rcases List.mem_cons.mp hi with h | h
      · omega
      · have := hlt i h
        omega
    have hname1 : (topOf (b.store.nodes.length :: b.stack) = none ∧
        (some n : Option String) = none) ∨
        (∃ p pn, topOf (b.store.nodes.length :: b.stack) = some p ∧
          (some n : Option String) = some pn ∧
          (b.store.addChild (topOf b.stack) (.element n a)).tagOf p = some pn) :=
      Or.inr ⟨b.store.nodes.length, n, rfl, rfl,
        tagOf_eq_of_kind (by rw [kindOf_addChild, if_pos rfl])⟩
    have htxt1 : lastChildText (b.store.addChild (topOf b.stack) (.element n a))
        (topOf (b.store.nodes.length :: b.stack)) = true → headIsTxt c = false := by
      intro hcon
      have hemp : (b.store.addChild (topOf b.stack) (.element n a)).childrenOf
          b.store.nodes.length = [] := by
        cases hcs : topOf b.stack with
        | none =>
          rw [childrenOf_addChild_none]
          exact childrenOf_length_self b.store
        | some q =>
          have hqlt : q < b.store.nodes.length := hlt q (mem_topOf hcs)
          rw [childrenOf_addChild_some b.store q _ _ hqlt, if_neg (by omega)]
          exact childrenOf_length_self b.store
      rw [show topOf (b.store.nodes.length :: b.stack) =
          some b.store.nodes.length from rfl,
        lastChildText_of_empty _ _ hemp] at hcon
      exact Bool.noConfusion hcon
    show List.foldl (step pol) b
      (Event.startTag n a :: (eventsOfForest c ++ [Event.endTag n])) = _
    rw [List.foldl_cons, hstep1, List.foldl_append]
    rw [sim_forest c pol (some n)
      ⟨b.store.addChild (topOf b.stack) (.element n a),
        b.store.nodes.length :: b.stack⟩ hgf hlt1 hname1 htxt1]
    show step pol ⟨appendForest (b.store.addChild (topOf b.stack) (.element n a))
      (some b.store.nodes.length) c, b.store.nodes.length :: b.stack⟩
      (.endTag n) = _
    have htag2 : (appendForest (b.store.addChild (topOf b.stack) (.element n a))
        (some b.store.nodes.length) c).tagOf b.store.nodes.length = some n := by
      have hk : (appendForest (b.store.addChild (topOf b.stack) (.element n a))
          (some b.store.nodes.length) c).kindOf b.store.nodes.length =
          some (.element n a) := by
        rw [kindOf_appendForest c _ _ _ (by rw [length_addChild]; omega),
          kindOf_addChild, if_pos rfl]
      exact tagOf_eq_of_kind hk
    have hbeq : ((appendForest (b.store.addChild (topOf b.stack) (.element n a))
        (some b.store.nodes.length) c).tagOf b.store.nodes.length ==
        some n) = true := by
      rw [htag2]
      simp
    have hclose2 : closeThrough (appendForest (b.store.addChild (topOf b.stack)
        (.element n a)) (some b.store.nodes.length) c) n
        (b.store.nodes.length :: b.stack) = b.stack := by
      unfold closeThrough
      have hhas : stackHasTag (appendForest (b.store.addChild (topOf b.stack)
          (.element n a)) (some b.store.nodes.length) c) n
          (b.store.nodes.length :: b.stack) = true := by
        unfold stackHasTag
        rw [hbeq]
        rfl
      rw [hhas]
      show popThroughTag (appendForest (b.store.addChild (topOf b.stack)
        (.element n a)) (some b.store.nodes.length) c) n
        (b.store.nodes.length :: b.stack) = b.stack
      unfold popThroughTag
      rw [hbeq]
      rfl
    show (⟨appendForest (b.store.addChild (topOf b.stack) (.element n a))
      (some b.store.nodes.length) c,
      closeThrough (appendForest (b.store.addChild (topOf b.stack) (.element n a))
        (some b.store.nodes.length) c) n
        (b.store.nodes.length :: b.stack)⟩ : Builder) = _
    rw [hclose2]
    rfl
  | txt d =>
    show b.handleText d = ⟨appendTree b.store (topOf b.stack) (.txt d), b.stack⟩
    cases hl : lastElem? (childListOf b.store (topOf b.stack)) with
    | none => exact handleText_append_none b d hl
    | some ci =>
      have hnt : isTextNode b.store ci = false := by
        cases hb2 : isTextNode b.store ci with
        | false => rfl
        | true =>
          have hlt2 : lastChildText b.store (topOf b.stack) = true := by
            rw [lastChildText_spec b.store (topOf b.stack) ci hl]
            exact hb2
          exact absurd (htxt hlt2) (by simp [isTxtTree])
      have hne : ∀ old, ¬ b.store.kindOf ci = some (.text old) := by
        intro old hc
        rw [isTextNode_eq_of_kind hc] at hnt
        exact Bool.noConfusion hnt
      exact handleText_append_other b d ci hl hne
  | com d => rfl
theorem sim_forest (f : EForest) (pol : TagPolicy) (pname : Option String)
    (b : Builder) (hg : goodForest pol pname f = true)
    (hlt : ∀ i ∈ b.stack, i < b.store.nodes.length)
    (hname : (topOf b.stack = none ∧ pname = none) ∨
      (∃ p pn, topOf b.stack = some p ∧ pname = some pn ∧
        b.store.tagOf p = some pn))
    (htxt : lastChildText b.store (topOf b.stack) = true → headIsTxt f = false) :
    List.foldl (step pol) b (eventsOfForest f) =
      ⟨appendForest b.store (topOf b.stack) f, b.stack⟩ := by
  cases f with
  | nil => rfl
  | cons t f2 =>
    have hg' : (goodTree pol t && rootCloseOk pol pname t &&
        !(isTxtTree t && headIsTxt f2) && goodForest pol pname f2) = true := hg
    rw [Bool.and_eq_true, Bool.and_eq_true, Bool.and_eq_true] at hg'
    obtain ⟨⟨⟨hg1, hc1⟩, hadj⟩, hgf2⟩ := hg'
    rw [Bool.not_eq_true'] at hadj
    have htxt1 : lastChildText b.store (topOf b.stack) = true →
        isTxtTree t = false := by
      intro h
      exact htxt h
    show List.foldl (step pol) b (eventsOfTree t ++ eventsOfForest f2) = _
    rw [List.foldl_append, sim_tree t pol pname b hg1 hc1 hlt hname htxt1]
    have hvalid : ∀ q, topOf b.stack = some q → q < b.store.nodes.length :=
      fun q h => hlt q (mem_topOf h)
    have hlt1 : ∀ i ∈ b.stack,
        i < (appendTree b.store (topOf b.stack) t).nodes.length := by
      intro i hi
      rw [length_appendTree]
      have := hlt i hi
      omega
    have hname1 : (topOf b.stack = none ∧ pname = none) ∨
        (∃ p pn, topOf b.stack = some p ∧ pname = some pn ∧
          (appendTree b.store (topOf b.stack) t).tagOf p = some pn) := by
      rcases hname with h | ⟨p, pn, hp, hpn, htag⟩
      · exact Or.inl h
      · refine Or.inr ⟨p, pn, hp, hpn, ?_⟩
        rw [tagOf_appendTree t b.store (topOf b.stack) p (hvalid p hp)]
        exact htag
    have htxt2 : lastChildText (appendTree b.store (topOf b.stack) t)
        (topOf b.stack) = true → headIsTxt f2 = false := by
      intro h
      rw [lastChildText_appendTree t b.store (topOf b.stack) hvalid] at h
      rw [h] at hadj
      simpa using hadj
    rw [sim_forest f2 pol pname ⟨appendTree b.store (topOf b.stack) t, b.stack⟩
      hgf2 hlt1 hname1 htxt2]
    rfl
end

end BSpec

namespace BSpec

/-- Claim C5: for every balanced, well-formed event sequence — the event
stream denoted by a well-formed fragment sequence: every start tag matched by
its end tag, no void tag used as a container, no implicit close triggered, no
two adjacent text runs — feeding the events to a fresh builder and then
traversing the finished document depth-first in pre-order reconstructs
exactly the nesting implied by the sequence: no nodes reordered and none
dropped. -/
theorem claim_C5_roundtrip (pol : TagPolicy) (f : EForest)
    (h : goodForest pol none f = true) :
    rootForest (run pol (eventsOfForest f)).store = f := by
  have hsim := sim_forest f pol none initBuilder h
    (by intro i hi; simp [initBuilder] at hi)
    (Or.inl ⟨rfl, rfl⟩)
    (fun hc => absurd hc (by decide))
  have hrun : run pol (eventsOfForest f) =
      ⟨appendForest emptyStore none f, []⟩ := hsim
  rw [hrun]
  unfold rootForest
  rw [rootChildren_appendForest_none f emptyStore]
  have hlen : (appendForest emptyStore none f).nodes.length = sizeF f := by
    rw [length_appendForest]
    show 0 + sizeF f = sizeF f
    omega
  rw [hlen]
  rw [show emptyStore.rootChildren ++ rootIdxs emptyStore.nodes.length f =
      rootIdxs emptyStore.nodes.length f from by
    show [] ++ _ = _
    rw [List.nil_append]]
  exact decode_appendForest f emptyStore none (sizeF f) (fun q hq => by cases hq)
    (depthF_le_sizeF f)

/-- Witness for claim C5: a list with one item containing a text run, under
the concrete test policy, round-trips through events and pre-order
traversal. -/
theorem claim_C5_witness :
    goodForest testPolicy none
      (EForest.cons (ETree.elem "ul" []
        (EForest.cons (ETree.elem "li" [] (EForest.cons (ETree.txt "x") EForest.nil))
          EForest.nil)) EForest.nil) = true ∧
    rootForest (run testPolicy (eventsOfForest
      (EForest.cons (ETree.elem "ul" []
        (EForest.cons (ETree.elem "li" [] (EForest.cons (ETree.txt "x") EForest.nil))
          EForest.nil)) EForest.nil))).store =
      EForest.cons (ETree.elem "ul" []
        (EForest.cons (ETree.elem "li" [] (EForest.cons (ETree.txt "x") EForest.nil))
          EForest.nil)) EForest.nil :=
  ⟨by decide, claim_C5_roundtrip testPolicy
    (EForest.cons (ETree.elem "ul" []
      (EForest.cons (ETree.elem "li" [] (EForest.cons (ETree.txt "x") EForest.nil))
        EForest.nil)) EForest.nil) (by decide)⟩

end BSpec
